import Mathlib

/-!
Verification of the lazy-evaluation / chainable-wrapper engine of a lodash
3.6.0 build (src/prebuilt-as-amd/lodash.js), plus the matcher fast path and
the eager take/drop coercion policy.

The element universe is a type parameter `α`; JavaScript truthiness of the
values produced by iteratees is supplied as a function `tru : α → Bool`
(a lodash iteratee returns a JS value whose truthiness is what `filter`,
`dropWhile` and `takeWhile` test, and whose value is what `map` uses).

`__takeCount__` is `Number.POSITIVE_INFINITY` initially and is only ever
lowered to `min` with a clamped nonnegative integer, so it is modelled as
`Option Nat` with `none` standing for positive infinity.
-/

namespace Lodash

/-- JS numeric argument as passed to `drop`/`take`: an integer or `NaN`
(the non-numeric coercion cases collapse to `NaN`/`0` in the source via
`+n || 0`). -/
inductive JsNum where
  | int (i : Int)
  | nan
deriving DecidableEq, Repr

/-- `_lodash__floor(n) || 0`: `floor` of an integer is itself; `NaN` maps
to `0` by `|| 0`. -/
def jsFloorOr0 : JsNum → Int
  | .int i => i
  | .nan => 0

/-- The `n` normalization shared by `LazyWrapper.prototype.drop/take`
(lodash.js:9270): `n == null ? 1 : nativeMax(floor(n) || 0, 0)`. -/
def normN : Option JsNum → Nat
  | none => 1
  | some m => (max (jsFloorOr0 m) 0).toNat

/-- `baseSlice(array, start, end)` (lodash.js:14-34).  `start`/`end` are JS
numbers (`none` models `undefined`); the `>>> 0` coercions stay in the
nonnegative small-integer envelope used by `take`/`drop`. -/
def baseSlice {α : Type} (array : List α) (start0 : Option JsNum) (end0 : Option JsNum) : List α :=
  let length : Int := array.length
  let s0 : Int := match start0 with
    | none => 0
    | some (.int i) => i
    | some .nan => 0
  let s1 : Int := if s0 < 0 then (if -s0 > length then 0 else length + s0) else s0
  let e0 : Int := match end0 with
    | none => length
    | some (.int i) => if i > length then length else i
    | some .nan => 0
  let e1 : Int := if e0 < 0 then e0 + length else e0
  let len : Nat := if s1 > e1 then 0 else (e1 - s1).toNat
  (array.drop s1.toNat).take len

/-- Eager `take(array, n)` (lodash.js:2167-2176, `guard` absent):
empty-array early return, `n == null → 1`, then
`baseSlice(array, 0, n < 0 ? 0 : n)`. -/
def array_take {α : Type} (array : List α) (n0 : Option JsNum) : List α :=
  if array.length = 0 then []
  else
    let n : JsNum := n0.getD (.int 1)
    let nEff : JsNum := match n with
      | .int i => .int (if i < 0 then 0 else i)
      | .nan => .nan
    baseSlice array (some (.int 0)) (some nEff)

/-- Eager `drop(array, n)` (lodash.js:679-688, `guard` absent):
empty-array early return, `n == null → 1`, then
`baseSlice(array, n < 0 ? 0 : n)`. -/
def array_drop {α : Type} (array : List α) (n0 : Option JsNum) : List α :=
  if array.length = 0 then []
  else
    let n : JsNum := n0.getD (.int 1)
    let nEff : JsNum := match n with
      | .int i => .int (if i < 0 then 0 else i)
      | .nan => .nan
    baseSlice array (some nEff) none

/-- A pending view transform entry `{size, type}` pushed by the lazy
`drop`/`take` methods (lodash.js:9279).  `size` is the already-clamped
nonnegative count. -/
inductive VType where
  | drop | dropRight | take | takeRight
deriving DecidableEq, Repr

structure ViewX where
  size : Nat
  vtype : VType
deriving DecidableEq, Repr

/-- `getView(start, end, transforms)` (lodash.js:8844-8860). -/
def getView (s e : Int) : List ViewX → Int × Int
  | [] => (s, e)
  | v :: vs =>
    match v.vtype with
    | .drop => getView (s + v.size) e vs
    | .dropRight => getView s (e - v.size) vs
    | .take => getView s (min e (s + v.size)) vs
    | .takeRight => getView (max s (e - v.size)) e vs

/-- An operation-queue entry (lodash.js:9248-9255): per-evaluation scratch
`done`/`count`/`index`, the iteratee, the bounded-drop `limit` and the
kind tag `type` (0 dropWhile, 1 filter, 2 map, 3 takeWhile). -/
structure LazyIter (α : Type) where
  done : Bool
  count : Nat
  index : Int
  iteratee : α → α
  limit : Int
  type : Nat

/-- A JS value as seen by the wrapper machinery: an array or some other
(non-array) value. -/
inductive JsVal (α : Type) where
  | arr (xs : List α)
  | raw (v : α)
deriving DecidableEq, Repr

/-- The non-structural fields of a `LazyWrapper` (lodash.js:2497-2506). -/
structure LazyCfg (α : Type) where
  actions : Option (List (JsVal α → JsVal α))
  dir : Int
  dropCount : Nat
  filtered : Bool
  iteratees : Option (List (LazyIter α))
  takeCount : Option Nat
  views : Option (List ViewX)

/-- `LazyWrapper`: its `__wrapped__` is either a plain wrapper whose
`value()` yields a JS value (`base`), or another `LazyWrapper` (`over`, as
produced by `lazyReverse` and by `dropWhile` on a filtered pipeline). -/
inductive LazyWrapper (α : Type) where
  | base (v : JsVal α) (c : LazyCfg α)
  | over (w : LazyWrapper α) (c : LazyCfg α)

/-- Field defaults of `new LazyWrapper(value)` (lodash.js:2497-2506). -/
def baseCfg {α : Type} : LazyCfg α :=
  { actions := none, dir := 1, dropCount := 0, filtered := false,
    iteratees := none, takeCount := none, views := none }

def LazyWrapper.cfg {α : Type} : LazyWrapper α → LazyCfg α
  | .base _ c => c
  | .over _ c => c

def withCfg {α : Type} : LazyWrapper α → (LazyCfg α → LazyCfg α) → LazyWrapper α
  | .base v c, f => .base v (f c)
  | .over w c, f => .over w (f c)

/-- `lazyClone` (lodash.js:8799-8812): copies every field except
`__dropCount__`, which stays at the constructor default `0`. -/
def cloneCfg {α : Type} (c : LazyCfg α) : LazyCfg α :=
  { actions := c.actions, dir := c.dir, dropCount := 0, filtered := c.filtered,
    iteratees := c.iteratees, takeCount := c.takeCount, views := c.views }

def lazyClone {α : Type} : LazyWrapper α → LazyWrapper α
  | .base v c => .base v (cloneCfg c)
  | .over w c => .over w (cloneCfg c)

/-- A freshly pushed queue entry (lodash.js:9248-9255). -/
def mkIter {α : Type} (ty : Nat) (f : α → α) : LazyIter α :=
  { done := false, count := 0, index := 0, iteratee := f, limit := -1, type := ty }

/-- The shared body of `LazyWrapper.prototype.dropWhile/filter/map/takeWhile`
(lodash.js:9238-9260), with `ty` the position of the method name in
`['dropWhile', 'filter', 'map', 'takeWhile']`. -/
def lazyPushIter {α : Type} (ty : Nat) (f : α → α) (w : LazyWrapper α) : LazyWrapper α :=
  let filtered := w.cfg.filtered
  let result := if filtered && (ty == 0) then .over w baseCfg else lazyClone w
  withCfg result (fun c =>
    { c with iteratees := some (c.iteratees.getD [] ++ [mkIter ty f]),
             filtered := filtered || (ty != 2) })

/-- `array_last(result.__iteratees__).limit = n` (lodash.js:9275). -/
def setLastLimit {α : Type} (n : Int) : List (LazyIter α) → List (LazyIter α)
  | [] => []
  | [e] => [{ e with limit := n }]
  | e :: es => e :: setLastLimit n es

/-- `LazyWrapper.prototype.drop` (lodash.js:9262-9282, `methodName` index 0:
on a filtered pipeline `this.dropWhile()` — whose undefined iteratee
`baseCallback` turns into the identity — then the fresh entry's `limit`
is set; otherwise a view push, `Right`-flavoured when `__dir__ < 0`). -/
def lazyDrop {α : Type} (w : LazyWrapper α) (n0 : Option JsNum) : LazyWrapper α :=
  let filtered := w.cfg.filtered
  let result := if filtered then lazyPushIter 0 id w else lazyClone w
  let n := normN n0
  if filtered then
    withCfg result (fun c => { c with iteratees := c.iteratees.map (setLastLimit (n : Int)) })
  else
    withCfg result (fun c =>
      { c with views := some (c.views.getD [] ++
          [⟨n, if c.dir < 0 then .dropRight else .drop⟩]) })

/-- `LazyWrapper.prototype.take` (lodash.js:9262-9282, `methodName` index 1:
on a filtered pipeline `__takeCount__ = nativeMin(__takeCount__, n)`;
otherwise a view push, `Right`-flavoured when `__dir__ < 0`). -/
def lazyTake {α : Type} (w : LazyWrapper α) (n0 : Option JsNum) : LazyWrapper α :=
  let filtered := w.cfg.filtered
  let result := lazyClone w
  let n := normN n0
  if filtered then
    withCfg result (fun c =>
      { c with takeCount := some (match c.takeCount with | none => n | some m => min m n) })
  else
    withCfg result (fun c =>
      { c with views := some (c.views.getD [] ++
          [⟨n, if c.dir < 0 then .takeRight else .take⟩]) })

/-- `lazyReverse` (lodash.js:8816-8826). -/
def lazyReverse {α : Type} (w : LazyWrapper α) : LazyWrapper α :=
  if w.cfg.filtered then
    .over w { baseCfg with dir := -1, filtered := true }
  else
    withCfg (lazyClone w) (fun c => { c with dir := c.dir * -1 })

/-- `baseWrapperValue(value, actions)` (lodash.js:2765-2781) as reached from
`lazyValue`'s non-array early return: a `LazyWrapper.__actions__` of `null`
makes `actions.length` throw a TypeError, modelled as `none`. -/
def baseWrapperValueM {α : Type} (v : JsVal α) :
    Option (List (JsVal α → JsVal α)) → Option (JsVal α)
  | none => none
  | some acts => some (acts.foldl (fun r a => a r) v)

/-- JS out-of-bounds reads yield `undefined`; inside the evaluator's loop the
index is always in range, so a default element stands in for `undefined`. -/
def arrGet {α : Type} [Inhabited α] (arr : List α) (i : Int) : α :=
  if h : 0 ≤ i ∧ i.toNat < arr.length then arr.get ⟨i.toNat, h.2⟩ else default

/-- Outcome of running one candidate element through the queue: emitted
(possibly transformed), skipped (`continue outer`), or pipeline terminated
(`break outer`). -/
inductive Emit (α : Type) where
  | emit (v : α)
  | skip
  | brk

/-- The inner `while (++iterIndex < iterLength)` loop of `lazyValue`
(lodash.js:8904-8933), threading the mutated entry states. -/
def runIts {α : Type} (tru : α → Bool) (isRight : Bool) (ix : Int) :
    List (LazyIter α) → α → (List (LazyIter α) × Emit α)
  | [], v => ([], .emit v)
  | e :: es, v =>
    if e.type = 0 then
      -- drop-while branch with the direction-reversal staleness reset
      let e1 := if e.done && (if isRight then decide (ix > e.index) else decide (ix < e.index))
                then { e with count := 0, done := false } else e
      let e2 := { e1 with index := ix }
      if e2.done then
        let r := runIts tru isRight ix es v
        (e2 :: r.1, r.2)
      else
        if e2.limit > -1 then
          let nd := decide ((e2.count : Int) ≥ e2.limit)
          let e3 := { e2 with count := e2.count + 1, done := nd }
          if nd then
            let r := runIts tru isRight ix es v
            (e3 :: r.1, r.2)
          else (e3 :: es, .skip)
        else
          let nd := !(tru (e2.iteratee v))
          let e3 := { e2 with done := nd }
          if nd then
            let r := runIts tru isRight ix es v
            (e3 :: r.1, r.2)
          else (e3 :: es, .skip)
    else if e.type = 2 then
      let r := runIts tru isRight ix es (e.iteratee v)
      (e :: r.1, r.2)
    else
      let c := e.iteratee v
      if tru c then
        let r := runIts tru isRight ix es v
        (e :: r.1, r.2)
      else if e.type = 1 then (e :: es, .skip)
      else (e :: es, .brk)

/-- The outer `while (length-- && resIndex < takeCount)` loop of `lazyValue`
(lodash.js:8897-8935).  `fuel` is the remaining `length` count (the loop
cannot run when `length ≤ 0` since then `takeCount ≤ 0` as well). -/
def lazyLoop {α : Type} [Inhabited α] (tru : α → Bool) (arr : List α) (dir : Int) (tc : Int) :
    Nat → Int → List (LazyIter α) → Int → List α → (List α × List (LazyIter α))
  | 0, _, es, _, acc => (acc, es)
  | fuel + 1, ix, es, resIx, acc =>
    if resIx < tc then
      let ix2 := ix + dir
      let v := arrGet arr ix2
      match runIts tru (decide (dir < 0)) ix2 es v with
      | (es2, .emit w) => lazyLoop tru arr dir tc fuel ix2 es2 (resIx + 1) (acc ++ [w])
      | (es2, .skip) => lazyLoop tru arr dir tc fuel ix2 es2 resIx acc
      | (es2, .brk) => (acc, es2)
    else (acc, es)

/-- `nativeMin(length, this.__takeCount__)` with `∞` as `none`. -/
def minCap (l : Int) : Option Nat → Int
  | none => l
  | some n => min l n

/-- The array branch of `lazyValue` (lodash.js:8884-8936) over one config,
returning the result array and the config with its mutated entry states. -/
def evalArr {α : Type} [Inhabited α] (tru : α → Bool) (A : List α) (c : LazyCfg α) :
    List α × LazyCfg α :=
  let v := getView 0 (A.length : Int) (c.views.getD [])
  let s := v.1
  let e := v.2
  let len := e - s
  let ix0 := if c.dir < 0 then e else s - 1
  let tcEff := minCap len c.takeCount
  let r := lazyLoop tru A c.dir tcEff len.toNat ix0 (c.iteratees.getD []) 0 []
  (r.1, { c with iteratees := c.iteratees.map (fun _ => r.2) })

/-- `lazyValue` (lodash.js:8879-8937), threading the post-evaluation wrapper
state (the source mutates the shared entry objects in place).  `none`
models the TypeError thrown by `baseWrapperValue` on a `null` actions
list. -/
def lazyValueS {α : Type} [Inhabited α] (tru : α → Bool) :
    LazyWrapper α → Option (JsVal α × LazyWrapper α)
  | .base v c =>
    match v with
    | .arr A =>
      let r := evalArr tru A c
      some (.arr r.1, .base v r.2)
    | .raw x => (baseWrapperValueM (.raw x) c.actions).map (fun r => (r, .base v c))
  | .over w c => do
    let p ← lazyValueS tru w
    match p.1 with
    | .arr A =>
      let r := evalArr tru A c
      some (.arr r.1, .over p.2 r.2)
    | .raw _ => (baseWrapperValueM p.1 c.actions).map (fun r => (r, .over p.2 c))

/-- The value of a single terminal evaluation. -/
def lazyVal {α : Type} [Inhabited α] (tru : α → Bool) (w : LazyWrapper α) : Option (JsVal α) :=
  (lazyValueS tru w).map Prod.fst

/-- The evaluated array of an array-backed pipeline. -/
def lazyList {α : Type} [Inhabited α] (tru : α → Bool) (w : LazyWrapper α) : List α :=
  match lazyVal tru w with
  | some (.arr l) => l
  | _ => []

/-- One chainable call of the lazy surface under study. -/
inductive Call (α : Type) where
  | map (f : α → α)
  | filter (f : α → α)
  | dropWhile (f : α → α)
  | takeWhile (f : α → α)
  | take (n : Option JsNum)
  | drop (n : Option JsNum)
  | reverse

def applyCall {α : Type} (c : Call α) (w : LazyWrapper α) : LazyWrapper α :=
  match c with
  | .map f => lazyPushIter 2 f w
  | .filter f => lazyPushIter 1 f w
  | .dropWhile f => lazyPushIter 0 f w
  | .takeWhile f => lazyPushIter 3 f w
  | .take n => lazyTake w n
  | .drop n => lazyDrop w n
  | .reverse => lazyReverse w

/-- The pipeline produced by a chain of lazy calls on an array source. -/
def build {α : Type} (cs : List (Call α)) (A : List α) : LazyWrapper α :=
  cs.foldl (fun w c => applyCall c w) (.base (.arr A) baseCfg)

/-- The eager fallback semantics of one call, materializing between steps:
`map`/`filter`/`dropWhile`/`takeWhile` test the iteratee result's
truthiness like `arrayFilter`/`baseWhile` do, `take`/`drop` are the eager
`array_take`/`array_drop`, `reverse` is `Array.prototype.reverse`. -/
def eagerCall {α : Type} (tru : α → Bool) (c : Call α) (l : List α) : List α :=
  match c with
  | .map f => l.map f
  | .filter f => l.filter (fun v => tru (f v))
  | .dropWhile f => l.dropWhile (fun v => tru (f v))
  | .takeWhile f => l.takeWhile (fun v => tru (f v))
  | .take n => array_take l n
  | .drop n => array_drop l n
  | .reverse => l.reverse

def eagerRun {α : Type} (tru : α → Bool) (cs : List (Call α)) (A : List α) : List α :=
  cs.foldl (fun l c => eagerCall tru c l) A

/-- Truthiness of an integer-valued JS model: `0` is falsy. -/
def truInt (x : Int) : Bool := !(x == 0)

/-! ### Pure denotational semantics of the evaluator

`denoteIter` is the residual pure stream function of one queue entry in a
given scratch state; `denoteAll` composes a queue; `semOf` is the intended
pure value of a whole wrapper.  These are specification-side definitions,
proved to agree with the translated evaluator below. -/

/-- Residual meaning of one queue entry in its current scratch state. -/
def denoteIter {α : Type} (tru : α → Bool) (e : LazyIter α) (s : List α) : List α :=
  if e.type = 0 then
    if e.done then s
    else if e.limit > -1 then s.drop (e.limit - e.count).toNat
    else s.dropWhile (fun v => tru (e.iteratee v))
  else if e.type = 2 then s.map e.iteratee
  else if e.type = 1 then s.filter (fun v => tru (e.iteratee v))
  else s.takeWhile (fun v => tru (e.iteratee v))

/-- Queue entries applied in order to a stream. -/
def denoteAll {α : Type} (tru : α → Bool) : List (LazyIter α) → List α → List α
  | [], s => s
  | e :: es, s => denoteAll tru es (denoteIter tru e s)

/-- The `[s, e)` sub-list of an array (valid for `0 ≤ s`, `e ≤ length`). -/
def sliceOf {α : Type} (A : List α) (s e : Int) : List α :=
  (A.drop s.toNat).take (e - s).toNat

/-- The `{start, end}` window of a config over a source of given length. -/
def viewOf {α : Type} (c : LazyCfg α) (A : List α) : Int × Int :=
  getView 0 (A.length : Int) (c.views.getD [])

/-- The element stream a config's loop visits, in iteration order. -/
def streamOf {α : Type} (c : LazyCfg α) (A : List α) : List α :=
  let v := viewOf c A
  if c.dir < 0 then (sliceOf A v.1 v.2).reverse else sliceOf A v.1 v.2

/-- Intended pure result of the array branch of `lazyValue` for one config. -/
def semOfList {α : Type} (tru : α → Bool) (c : LazyCfg α) (A : List α) : List α :=
  let v := viewOf c A
  (denoteAll tru (c.iteratees.getD []) (streamOf c A)).take (minCap (v.2 - v.1) c.takeCount).toNat

/-- Intended pure result of a whole wrapper. -/
def semOf {α : Type} (tru : α → Bool) : LazyWrapper α → List α
  | .base (.arr A) c => semOfList tru c A
  | .base (.raw _) _ => []
  | .over w c => semOfList tru c (semOf tru w)

/-- The elements the outer loop would read: `fuel` reads starting at
`ix + dir`. -/
def visitVals {α : Type} [Inhabited α] (arr : List α) (dir : Int) : Int → Nat → List α
  | _, 0 => []
  | ix, fuel + 1 => arrGet arr (ix + dir) :: visitVals arr dir (ix + dir) fuel

/-- No drop-while entry is in a state where processing index `ix` would
trigger the direction-reversal staleness reset. -/
def IdxOk {α : Type} (isRight : Bool) (ix : Int) (es : List (LazyIter α)) : Prop :=
  ∀ e ∈ es, e.type = 0 → e.done = true →
    (if isRight then ix ≤ e.index else e.index ≤ ix)

theorem denoteIter_nil {α : Type} (tru : α → Bool) (e : LazyIter α) :
    denoteIter tru e [] = [] := by
  unfold denoteIter
  split
  · split
    · rfl
    · split <;> simp
  · split
    · rfl
    · split <;> rfl

theorem denoteAll_nil {α : Type} (tru : α → Bool) :
    ∀ es : List (LazyIter α), denoteAll tru es [] = []
  | [] => rfl
  | e :: es => by
    show denoteAll tru es (denoteIter tru e []) = []
    rw [denoteIter_nil]
    exact denoteAll_nil tru es

theorem denoteIter_length_le {α : Type} (tru : α → Bool) (e : LazyIter α) (s : List α) :
    (denoteIter tru e s).length ≤ s.length := by
  unfold denoteIter
  split
  · split
    · exact le_refl _
    · split
      · simp
      · simpa using (List.dropWhile_suffix _).sublist.length_le
  · split
    · simp
    · split
      · simpa using s.length_filter_le _
      · simpa using (List.takeWhile_prefix _).sublist.length_le

theorem denoteAll_length_le {α : Type} (tru : α → Bool) :
    ∀ (es : List (LazyIter α)) (s : List α), (denoteAll tru es s).length ≤ s.length
  | [], _ => le_refl _
  | e :: es, s =>
    le_trans (denoteAll_length_le tru es (denoteIter tru e s)) (denoteIter_length_le tru e s)

theorem denoteAll_append_one {α : Type} (tru : α → Bool) :
    ∀ (es : List (LazyIter α)) (e : LazyIter α) (s : List α),
    denoteAll tru (es ++ [e]) s = denoteIter tru e (denoteAll tru es s)
  | [], _, _ => rfl
  | x :: es, e, s => denoteAll_append_one tru es e (denoteIter tru x s)

theorem denoteAll_one {α : Type} (tru : α → Bool) (e : LazyIter α) (s : List α) :
    denoteAll tru [e] s = denoteIter tru e s := rfl

theorem denoteIter_set_index {α : Type} (tru : α → Bool) (e : LazyIter α) (i : Int) (s : List α) :
    denoteIter tru { e with index := i } s = denoteIter tru e s := rfl

theorem IdxOk_mono {α : Type} {isRight : Bool} {ix ix' : Int} {es : List (LazyIter α)}
    (h : IdxOk isRight ix es) (hix : if isRight then ix' ≤ ix else ix ≤ ix') :
    IdxOk isRight ix' es := by
  intro e he h0 hd
  have := h e he h0 hd
  cases isRight <;> simp_all <;> omega

/-- One element through the inner loop: the stateful step agrees with the
residual denotations, and the staleness reset stays disabled for the next
index in iteration order. -/
theorem runIts_spec {α : Type} (tru : α → Bool) (isRight : Bool) (ix ix' : Int)
    (hix : if isRight then ix' ≤ ix else ix ≤ ix') :
    ∀ (es : List (LazyIter α)) (v : α) (rest : List α), IdxOk isRight ix es →
      (denoteAll tru es (v :: rest) =
        (match runIts tru isRight ix es v with
         | (es2, .emit w) => w :: denoteAll tru es2 rest
         | (es2, .skip) => denoteAll tru es2 rest
         | (_, .brk) => []))
      ∧ IdxOk isRight ix' (runIts tru isRight ix es v).1
  | [], v, rest, _ => by
    constructor
    · simp [runIts, denoteAll]
    · intro e he _ _
      simp [runIts] at he
  | e :: es, v, rest, h => by
    have hTail : IdxOk isRight ix es := fun x hx => h x (List.mem_cons_of_mem _ hx)
    have hHead := h e (List.mem_cons_self _ _)
    by_cases ht0 : e.type = 0
    · by_cases hd : e.done = true
      · have hC : (if isRight = true then decide (ix > e.index) else decide (ix < e.index)) = false := by
          have h2 := hHead ht0 hd
          cases isRight <;> simp_all
        -- done drop-while entry: passes the value through unchanged
        obtain ⟨ih1, ih2⟩ := runIts_spec tru isRight ix ix' hix es v rest hTail
        rcases hr : runIts tru isRight ix es v with ⟨es2, out⟩
        have hrun : runIts tru isRight ix (e :: es) v =
            ({ e with index := ix } :: es2, out) := by
          simp [runIts, ht0, hd, hC, hr]
        have hden : denoteIter tru e (v :: rest) = v :: rest := by
          simp [denoteIter, ht0, hd]
        have hden2 : ∀ s, denoteIter tru { e with index := ix } s = s := by
          intro s; simp [denoteIter, ht0, hd]
        constructor
        · show denoteAll tru es (denoteIter tru e (v :: rest)) = _
          rw [hden, hrun, ih1, hr]
          cases out with
          | emit w =>
            show w :: denoteAll tru es2 rest = w :: denoteAll tru es2 (denoteIter tru _ rest)
            rw [hden2]
          | skip =>
            show denoteAll tru es2 rest = denoteAll tru es2 (denoteIter tru _ rest)
            rw [hden2]
          | brk => rfl
        · rw [hrun]
          intro x hx hx0 hxd
          rcases List.mem_cons.mp hx with hx | hx
          · subst hx
            simp only at hxd ⊢
            cases isRight <;> simpa using hix
          · have ih2x : IdxOk isRight ix' es2 := by simpa [hr] using ih2
            exact ih2x x hx hx0 hxd
      · replace hd : e.done = false := by simpa using hd
        by_cases hlim : e.limit > -1
        · by_cases hc : (e.count : Int) ≥ e.limit
          · -- bounded drop exhausted at this element: mark done, pass through
            obtain ⟨ih1, ih2⟩ := runIts_spec tru isRight ix ix' hix es v rest hTail
            rcases hr : runIts tru isRight ix es v with ⟨es2, out⟩
            have hrun : runIts tru isRight ix (e :: es) v =
                ({ e with index := ix, count := e.count + 1, done := true } :: es2, out) := by
              simp [runIts, ht0, hd, hlim, hc, hr]
            have hden : denoteIter tru e (v :: rest) = v :: rest := by
              simp only [denoteIter, ht0, if_true, hd, Bool.false_eq_true, if_false, hlim]
              have : (e.limit - (e.count : Int)).toNat = 0 := by omega
              simp [this]
            have hden2 : ∀ s,
                denoteIter tru { e with index := ix, count := e.count + 1, done := true } s = s := by
              intro s; simp [denoteIter, ht0]
            constructor
            · show denoteAll tru es (denoteIter tru e (v :: rest)) = _
              rw [hden, hrun, ih1, hr]
              cases out with
              | emit w =>
                show w :: denoteAll tru es2 rest = w :: denoteAll tru es2 (denoteIter tru _ rest)
                rw [hden2]
              | skip =>
                show denoteAll tru es2 rest = denoteAll tru es2 (denoteIter tru _ rest)
                rw [hden2]
              | brk => rfl
            · rw [hrun]
              intro x hx hx0 hxd
              rcases List.mem_cons.mp hx with hx | hx
              · subst hx
                simp only at hxd ⊢
                cases isRight <;> simpa using hix
              · have ih2x : IdxOk isRight ix' es2 := by simpa [hr] using ih2
                exact ih2x x hx hx0 hxd
          · -- bounded drop still counting: skip this element
            have hrun : runIts tru isRight ix (e :: es) v =
                ({ e with index := ix, count := e.count + 1, done := false } :: es, .skip) := by
              simp [runIts, ht0, hd, hlim, hc]
            have hden : denoteIter tru e (v :: rest) =
                denoteIter tru { e with index := ix, count := e.count + 1, done := false } rest := by
              simp only [denoteIter, ht0, if_true, hd, Bool.false_eq_true, if_false, hlim]
              have h1 : (e.limit - (e.count : Int)).toNat
                  = (e.limit - ((e.count : Int) + 1)).toNat + 1 := by omega
              simp [h1]
            constructor
            · show denoteAll tru es (denoteIter tru e (v :: rest)) = _
              rw [hden, hrun]
              rfl
            · rw [hrun]
              intro x hx hx0 hxd
              rcases List.mem_cons.mp hx with hx | hx
              · subst hx; simp at hxd
              · exact IdxOk_mono hTail hix x hx hx0 hxd
        · by_cases hq : tru (e.iteratee v) = true
          · -- predicate drop-while still holding: skip this element
            have hrun : runIts tru isRight ix (e :: es) v =
                ({ e with index := ix, done := false } :: es, .skip) := by
              simp [runIts, ht0, hd, hlim, hq]
            have hden : denoteIter tru e (v :: rest) =
                denoteIter tru { e with index := ix, done := false } rest := by
              simp [denoteIter, ht0, hd, hlim, hq]
            constructor
            · show denoteAll tru es (denoteIter tru e (v :: rest)) = _
              rw [hden, hrun]
              rfl
            · rw [hrun]
              intro x hx hx0 hxd
              rcases List.mem_cons.mp hx with hx | hx
              · subst hx; simp at hxd
              · exact IdxOk_mono hTail hix x hx hx0 hxd
          · -- predicate fails: done, pass through from here on
            obtain ⟨ih1, ih2⟩ := runIts_spec tru isRight ix ix' hix es v rest hTail
            rcases hr : runIts tru isRight ix es v with ⟨es2, out⟩
            have hrun : runIts tru isRight ix (e :: es) v =
                ({ e with index := ix, done := true } :: es2, out) := by
              simp [runIts, ht0, hd, hlim, hq, hr]
            have hden : denoteIter tru e (v :: rest) = v :: rest := by
              simp [denoteIter, ht0, hd, hlim, hq]
            have hden2 : ∀ s, denoteIter tru { e with index := ix, done := true } s = s := by
              intro s; simp [denoteIter, ht0]
            constructor
            · show denoteAll tru es (denoteIter tru e (v :: rest)) = _
              rw [hden, hrun, ih1, hr]
              cases out with
              | emit w =>
                show w :: denoteAll tru es2 rest = w :: denoteAll tru es2 (denoteIter tru _ rest)
                rw [hden2]
              | skip =>
                show denoteAll tru es2 rest = denoteAll tru es2 (denoteIter tru _ rest)
                rw [hden2]
              | brk => rfl
            · rw [hrun]
              intro x hx hx0 hxd
              rcases List.mem_cons.mp hx with hx | hx
              · subst hx
                simp only at hxd ⊢
                cases isRight <;> simpa using hix
              · have ih2x : IdxOk isRight ix' es2 := by simpa [hr] using ih2
                exact ih2x x hx hx0 hxd
    · by_cases ht2 : e.type = 2
      · -- map entry
        obtain ⟨ih1, ih2⟩ :=
          runIts_spec tru isRight ix ix' hix es (e.iteratee v) (rest.map e.iteratee) hTail
        rcases hr : runIts tru isRight ix es (e.iteratee v) with ⟨es2, out⟩
        have hrun : runIts tru isRight ix (e :: es) v = (e :: es2, out) := by
          simp [runIts, ht0, ht2, hr]
        have hden : denoteIter tru e (v :: rest) = e.iteratee v :: rest.map e.iteratee := by
          simp [denoteIter, ht0, ht2]
        have hden2 : ∀ s, denoteIter tru e s = s.map e.iteratee := by
          intro s; simp [denoteIter, ht0, ht2]
        constructor
        · show denoteAll tru es (denoteIter tru e (v :: rest)) = _
          rw [hden, ih1, hr, hrun]
          cases out with
          | emit w =>
            show w :: denoteAll tru es2 (rest.map e.iteratee)
                = w :: denoteAll tru es2 (denoteIter tru e rest)
            rw [hden2]
          | skip =>
            show denoteAll tru es2 (rest.map e.iteratee)
                = denoteAll tru es2 (denoteIter tru e rest)
            rw [hden2]
          | brk => rfl
        · rw [hrun]
          intro x hx hx0 hxd
          rcases List.mem_cons.mp hx with hx | hx
          · subst hx; exact absurd hx0 ht0
          · have ih2x : IdxOk isRight ix' es2 := by simpa [hr] using ih2
            exact ih2x x hx hx0 hxd
      · by_cases htr : tru (e.iteratee v) = true
        · -- filter/take-while entry, predicate truthy: pass through
          by_cases ht1 : e.type = 1
          · obtain ⟨ih1, ih2⟩ :=
              runIts_spec tru isRight ix ix' hix es v
                (rest.filter (fun x => tru (e.iteratee x))) hTail
            rcases hr : runIts tru isRight ix es v with ⟨es2, out⟩
            have hrun : runIts tru isRight ix (e :: es) v = (e :: es2, out) := by
              simp [runIts, ht0, ht2, htr, hr]
            have hden : denoteIter tru e (v :: rest)
                = v :: rest.filter (fun x => tru (e.iteratee x)) := by
              simp [denoteIter, ht0, ht2, ht1, htr]
            have hden2 : ∀ s, denoteIter tru e s = s.filter (fun x => tru (e.iteratee x)) := by
              intro s; simp [denoteIter, ht0, ht2, ht1]
            constructor
            · show denoteAll tru es (denoteIter tru e (v :: rest)) = _
              rw [hden, ih1, hr, hrun]
              cases out with
              | emit w =>
                show _ = w :: denoteAll tru es2 (denoteIter tru e rest)
                rw [hden2]
              | skip =>
                show _ = denoteAll tru es2 (denoteIter tru e rest)
                rw [hden2]
              | brk => rfl
            · rw [hrun]
              intro x hx hx0 hxd
              rcases List.mem_cons.mp hx with hx | hx
              · subst hx; exact absurd hx0 ht0
              · have ih2x : IdxOk isRight ix' es2 := by simpa [hr] using ih2
                exact ih2x x hx hx0 hxd
          · obtain ⟨ih1, ih2⟩ :=
              runIts_spec tru isRight ix ix' hix es v
                (rest.takeWhile (fun x => tru (e.iteratee x))) hTail
            rcases hr : runIts tru isRight ix es v with ⟨es2, out⟩
            have hrun : runIts tru isRight ix (e :: es) v = (e :: es2, out) := by
              simp [runIts, ht0, ht2, htr, hr]
            have hden : denoteIter tru e (v :: rest)
                = v :: rest.takeWhile (fun x => tru (e.iteratee x)) := by
              simp [denoteIter, ht0, ht2, ht1, htr]
            have hden2 : ∀ s, denoteIter tru e s = s.takeWhile (fun x => tru (e.iteratee x)) := by
              intro s; simp [denoteIter, ht0, ht2, ht1]
            constructor
            · show denoteAll tru es (denoteIter tru e (v :: rest)) = _
              rw [hden, ih1, hr, hrun]
              cases out with
              | emit w =>
                show _ = w :: denoteAll tru es2 (denoteIter tru e rest)
                rw [hden2]
              | skip =>
                show _ = denoteAll tru es2 (denoteIter tru e rest)
                rw [hden2]
              | brk => rfl
            · rw [hrun]
              intro x hx hx0 hxd
              rcases List.mem_cons.mp hx with hx | hx
              · subst hx; exact absurd hx0 ht0
              · have ih2x : IdxOk isRight ix' es2 := by simpa [hr] using ih2
                exact ih2x x hx hx0 hxd
        · replace htr : tru (e.iteratee v) = false := by simpa using htr
          by_cases ht1 : e.type = 1
          · -- filter rejects: skip, queue untouched
            have hrun : runIts tru isRight ix (e :: es) v = (e :: es, .skip) := by
              simp [runIts, ht0, ht2, htr, ht1]
            have hden : denoteIter tru e (v :: rest) = denoteIter tru e rest := by
              simp [denoteIter, ht0, ht2, ht1, htr]
            constructor
            · show denoteAll tru es (denoteIter tru e (v :: rest)) = _
              rw [hden, hrun]
              rfl
            · rw [hrun]
              intro x hx hx0 hxd
              rcases List.mem_cons.mp hx with hx | hx
              · subst hx; exact absurd hx0 ht0
              · exact IdxOk_mono hTail hix x hx hx0 hxd
          · -- take-while fails: the whole evaluation terminates
            have hrun : runIts tru isRight ix (e :: es) v = (e :: es, .brk) := by
              simp [runIts, ht0, ht2, htr, ht1]
            have hden : denoteIter tru e (v :: rest) = [] := by
              simp [denoteIter, ht0, ht2, ht1, htr]
            constructor
            · show denoteAll tru es (denoteIter tru e (v :: rest)) = _
              rw [hden, hrun, denoteAll_nil]
            · rw [hrun]
              intro x hx hx0 hxd
              rcases List.mem_cons.mp hx with hx | hx
              · subst hx; exact absurd hx0 ht0
              · exact IdxOk_mono hTail hix x hx hx0 hxd

/-- The outer loop emits the `takeCount`-capped prefix of the fused pure
stream over the elements it can visit. -/
theorem lazyLoop_spec {α : Type} [Inhabited α] (tru : α → Bool) (arr : List α) (dir : Int)
    (tc : Int) :
    ∀ (fuel : Nat) (ix : Int) (es : List (LazyIter α)) (resIx : Int) (acc : List α),
    IdxOk (decide (dir < 0)) (ix + dir) es →
    (lazyLoop tru arr dir tc fuel ix es resIx acc).1
      = acc ++ (denoteAll tru es (visitVals arr dir ix fuel)).take (tc - resIx).toNat
  | 0, ix, es, resIx, acc, _ => by
    simp [lazyLoop, visitVals, denoteAll_nil]
  | fuel + 1, ix, es, resIx, acc, h => by
    have hstepix : if decide (dir < 0) = true then ix + dir + dir ≤ ix + dir
        else ix + dir ≤ ix + dir + dir := by
      by_cases hdl : dir < 0 <;> simp [hdl] <;> omega
    by_cases hres : resIx < tc
    · obtain ⟨h1, h2⟩ := runIts_spec tru (decide (dir < 0)) (ix + dir) (ix + dir + dir) hstepix
        es (arrGet arr (ix + dir)) (visitVals arr dir (ix + dir) fuel) h
      rcases hr : runIts tru (decide (dir < 0)) (ix + dir) es (arrGet arr (ix + dir)) with ⟨es2, out⟩
      rw [hr] at h1 h2
      have hvv : visitVals arr dir ix (fuel + 1)
          = arrGet arr (ix + dir) :: visitVals arr dir (ix + dir) fuel := rfl
      cases out with
      | emit w =>
        have hL : lazyLoop tru arr dir tc (fuel + 1) ix es resIx acc
            = lazyLoop tru arr dir tc fuel (ix + dir) es2 (resIx + 1) (acc ++ [w]) := by
          simp [lazyLoop, hres, hr]
        rw [hL, lazyLoop_spec tru arr dir tc fuel (ix + dir) es2 (resIx + 1) (acc ++ [w]) h2,
          hvv, h1]
        have htc : (tc - resIx).toNat = (tc - (resIx + 1)).toNat + 1 := by omega
        rw [htc, List.take_succ_cons, List.append_assoc]
        rfl
      | skip =>
        have hL : lazyLoop tru arr dir tc (fuel + 1) ix es resIx acc
            = lazyLoop tru arr dir tc fuel (ix + dir) es2 resIx acc := by
          simp [lazyLoop, hres, hr]
        rw [hL, lazyLoop_spec tru arr dir tc fuel (ix + dir) es2 resIx acc h2, hvv, h1]
      | brk =>
        have hL : (lazyLoop tru arr dir tc (fuel + 1) ix es resIx acc).1 = acc := by
          simp [lazyLoop, hres, hr]
        rw [hL, hvv, h1]
        simp
    · have hL : (lazyLoop tru arr dir tc (fuel + 1) ix es resIx acc).1 = acc := by
        simp [lazyLoop, hres]
      have htc : (tc - resIx).toNat = 0 := by omega
      rw [hL, htc]
      simp

theorem getView_bounds (L : Int) :
    ∀ (vs : List ViewX) (s e : Int), 0 ≤ s → e ≤ L →
    0 ≤ (getView s e vs).1 ∧ (getView s e vs).2 ≤ L
  | [], _, _, hs, he => ⟨hs, he⟩
  | ⟨sz, vt⟩ :: vs, s, e, hs, he => by
    cases vt
    · exact getView_bounds L vs (s + (sz : Int)) e (by omega) he
    · exact getView_bounds L vs s (e - (sz : Int)) hs (by omega)
    · exact getView_bounds L vs s (min e (s + (sz : Int))) hs (le_trans (min_le_left _ _) he)
    · exact getView_bounds L vs (max s (e - (sz : Int))) e (le_trans hs (le_max_left _ _)) he

theorem sliceOf_length {α : Type} (A : List α) (s e : Int) (hs : 0 ≤ s) (he : e ≤ A.length) :
    (sliceOf A s e).length = (e - s).toNat := by
  simp only [sliceOf, List.length_take, List.length_drop]
  omega

theorem visitVals_forward {α : Type} [Inhabited α] (arr : List α) :
    ∀ (fuel : Nat) (s : Int), 0 ≤ s → s + (fuel : Int) ≤ arr.length →
    visitVals arr 1 (s - 1) fuel = (arr.drop s.toNat).take fuel
  | 0, s, _, _ => by simp [visitVals]
  | fuel + 1, s, hs, hle => by
    have hlt : s.toNat < arr.length := by omega
    have h1 : s - 1 + 1 = s := by omega
    have h2 : s + 1 - 1 = s := by omega
    have ih := visitVals_forward arr fuel (s + 1) (by omega) (by omega)
    rw [h2] at ih
    show arrGet arr (s - 1 + 1) :: visitVals arr 1 (s - 1 + 1) fuel = _
    rw [h1, ih]
    have hget : arrGet arr s = arr.get ⟨s.toNat, hlt⟩ := by
      simp [arrGet, hlt, hs]
    rw [hget, List.drop_eq_getElem_cons hlt, List.take_succ_cons]
    have h3 : (s + 1).toNat = s.toNat + 1 := by omega
    rw [h3]
    rfl

theorem visitVals_backward {α : Type} [Inhabited α] (arr : List α) :
    ∀ (fuel : Nat) (e : Int), 0 ≤ e → e ≤ arr.length → fuel ≤ e.toNat →
    visitVals arr (-1) e fuel = ((arr.drop (e.toNat - fuel)).take fuel).reverse
  | 0, e, _, _, _ => by simp [visitVals]
  | fuel + 1, e, he0, heL, hef => by
    have hidx : e.toNat - 1 < arr.length := by omega
    have ih := visitVals_backward arr fuel (e - 1) (by omega) (by omega) (by omega)
    show arrGet arr (e + -1) :: visitVals arr (-1) (e + -1) fuel = _
    have h1 : e + -1 = e - 1 := by ring
    rw [h1, ih]
    have hget : arrGet arr (e - 1) = arr[e.toNat - 1] := by
      have : (e - 1).toNat = e.toNat - 1 := by omega
      simp only [arrGet]
      rw [dif_pos ⟨by omega, by omega⟩]
      simp [this]
    have h2 : (e - 1).toNat - fuel = e.toNat - (fuel + 1) := by omega
    rw [hget, h2]
    have h3 : (arr.drop (e.toNat - (fuel + 1))).take (fuel + 1)
        = (arr.drop (e.toNat - (fuel + 1))).take fuel ++ [arr[e.toNat - 1]] := by
      rw [List.take_succ]
      have h4 : (arr.drop (e.toNat - (fuel + 1)))[fuel]? = some arr[e.toNat - 1] := by
        rw [List.getElem?_drop]
        have h5 : e.toNat - (fuel + 1) + fuel = e.toNat - 1 := by omega
        rw [h5, List.getElem?_eq_getElem hidx]
      rw [h4]
      rfl
    rw [h3]
    simp

/-- Well-formedness of a wrapper before any evaluation: array-backed, a
unit direction, and all queue entries in their freshly pushed state. -/
def WfCfg {α : Type} (c : LazyCfg α) : Prop :=
  (∀ e ∈ c.iteratees.getD [], e.done = false ∧ e.count = 0) ∧ (c.dir = 1 ∨ c.dir = -1)

def Wf {α : Type} : LazyWrapper α → Prop
  | .base v c => (∃ A, v = .arr A) ∧ WfCfg c
  | .over w c => Wf w ∧ WfCfg c

theorem evalArr_spec {α : Type} [Inhabited α] (tru : α → Bool) (A : List α) (c : LazyCfg α)
    (hcfg : WfCfg c) :
    (evalArr tru A c).1 = semOfList tru c A := by
  obtain ⟨hfresh, hdir⟩ := hcfg
  have hIdx : ∀ ix, IdxOk (decide (c.dir < 0)) ix (c.iteratees.getD []) := by
    intro ix x hx _ hxd
    have := (hfresh x hx).1
    rw [this] at hxd
    exact absurd hxd (by simp)
  rcases hv : getView 0 (A.length : Int) (c.views.getD []) with ⟨s, e⟩
  have hb := getView_bounds (A.length : Int) (c.views.getD []) 0 (A.length : Int)
    le_rfl le_rfl
  rw [hv] at hb
  obtain ⟨hs, he⟩ := hb
  simp only [evalArr, semOfList, streamOf, viewOf, hv]
  by_cases hse : e ≤ s
  · have hfz : (e - s).toNat = 0 := by omega
    have hsl : sliceOf A s e = [] := by
      simp [sliceOf, hfz]
    rw [hfz, hsl]
    have : (if c.dir < 0 then (List.reverse ([] : List α)) else ([] : List α)) = [] := by
      split <;> rfl
    rw [this, denoteAll_nil]
    simp [lazyLoop]
  · rcases hdir with hdir | hdir
    · have hL : (lazyLoop tru A c.dir (minCap (e - s) c.takeCount) (e - s).toNat (s - 1)
          (c.iteratees.getD []) 0 []).1
          = (denoteAll tru (c.iteratees.getD [])
              (visitVals A c.dir (s - 1) (e - s).toNat)).take
              (minCap (e - s) c.takeCount - 0).toNat := by
        rw [lazyLoop_spec tru A c.dir _ _ _ _ 0 [] (hIdx _)]
        rfl
      rw [hdir] at hL ⊢
      have hvv := visitVals_forward A (e - s).toNat s hs (by omega)
      simp only [if_neg (by norm_num : ¬(1 : Int) < 0)]
      rw [hL, hvv]
      have : (minCap (e - s) c.takeCount - 0) = minCap (e - s) c.takeCount := by ring
      rw [this]
      rfl
    · have hL : (lazyLoop tru A c.dir (minCap (e - s) c.takeCount) (e - s).toNat e
          (c.iteratees.getD []) 0 []).1
          = (denoteAll tru (c.iteratees.getD [])
              (visitVals A c.dir e (e - s).toNat)).take
              (minCap (e - s) c.takeCount - 0).toNat := by
        rw [lazyLoop_spec tru A c.dir _ _ _ _ 0 [] (hIdx _)]
        rfl
      rw [hdir] at hL ⊢
      have hvv := visitVals_backward A (e - s).toNat e (by omega) (by push_cast at he ⊢; omega)
        (by omega)
      simp only [if_pos (by norm_num : (-1 : Int) < 0)]
      rw [hL, hvv]
      have h6 : e.toNat - (e - s).toNat = s.toNat := by omega
      rw [h6]
      have : (minCap (e - s) c.takeCount - 0) = minCap (e - s) c.takeCount := by ring
      rw [this]
      rfl

/-- A well-formed wrapper evaluates to the array given by its pure
denotation `semOf`. -/
theorem lazyValueS_char {α : Type} [Inhabited α] (tru : α → Bool) :
    ∀ (w : LazyWrapper α), Wf w →
    ∃ w2, lazyValueS tru w = some (.arr (semOf tru w), w2)
  | .base v c, h => by
    obtain ⟨⟨A, rfl⟩, hcfg⟩ := h
    refine ⟨.base (.arr A) (evalArr tru A c).2, ?_⟩
    simp only [lazyValueS, semOf]
    rw [evalArr_spec tru A c hcfg]
  | .over w c, h => by
    obtain ⟨hw, hcfg⟩ := h
    obtain ⟨w2, hval⟩ := lazyValueS_char tru w hw
    refine ⟨.over w2 (evalArr tru (semOf tru w) c).2, ?_⟩
    simp only [lazyValueS, hval, Option.bind_eq_bind, Option.some_bind, semOf]
    rw [evalArr_spec tru (semOf tru w) c hcfg]

theorem lazyVal_char {α : Type} [Inhabited α] (tru : α → Bool) (w : LazyWrapper α) (h : Wf w) :
    lazyVal tru w = some (.arr (semOf tru w)) := by
  obtain ⟨w2, hval⟩ := lazyValueS_char tru w h
  simp [lazyVal, hval]

theorem lazyList_char {α : Type} [Inhabited α] (tru : α → Bool) (w : LazyWrapper α) (h : Wf w) :
    lazyList tru w = semOf tru w := by
  simp [lazyList, lazyVal_char tru w h]

/-! ### How each chainable method transforms the pure denotation -/

theorem takeWhile_take_comm {α : Type} (p : α → Bool) :
    ∀ (l : List α) (n : Nat), (l.take n).takeWhile p = (l.takeWhile p).take n
  | [], n => by simp
  | a :: l, 0 => by simp
  | a :: l, n + 1 => by
    cases hp : p a <;>
      simp [List.take_succ_cons, List.takeWhile_cons, hp, takeWhile_take_comm p l n]

/-- Queue entries that are all `map`s. -/
def AllMaps {α : Type} (es : List (LazyIter α)) : Prop := ∀ e ∈ es, e.type = 2

theorem denoteAll_maps_take {α : Type} (tru : α → Bool) :
    ∀ (es : List (LazyIter α)) (s : List α) (n : Nat), AllMaps es →
    denoteAll tru es (s.take n) = (denoteAll tru es s).take n
  | [], _, _, _ => rfl
  | e :: es, s, n, h => by
    have h2 := h e (List.mem_cons_self _ _)
    show denoteAll tru es (denoteIter tru e (s.take n)) = _
    have hmap : ∀ t, denoteIter tru e t = t.map e.iteratee := by
      intro t; simp [denoteIter, h2]
    rw [hmap, List.map_take, denoteAll_maps_take tru es _ n
      (fun x hx => h x (List.mem_cons_of_mem _ hx))]
    show _ = List.take n (denoteAll tru es (denoteIter tru e s))
    rw [hmap]

theorem denoteAll_maps_drop {α : Type} (tru : α → Bool) :
    ∀ (es : List (LazyIter α)) (s : List α) (n : Nat), AllMaps es →
    denoteAll tru es (s.drop n) = (denoteAll tru es s).drop n
  | [], _, _, _ => rfl
  | e :: es, s, n, h => by
    have h2 := h e (List.mem_cons_self _ _)
    show denoteAll tru es (denoteIter tru e (s.drop n)) = _
    have hmap : ∀ t, denoteIter tru e t = t.map e.iteratee := by
      intro t; simp [denoteIter, h2]
    rw [hmap, List.map_drop, denoteAll_maps_drop tru es _ n
      (fun x hx => h x (List.mem_cons_of_mem _ hx))]
    show _ = List.drop n (denoteAll tru es (denoteIter tru e s))
    rw [hmap]

theorem denoteAll_maps_reverse {α : Type} (tru : α → Bool) :
    ∀ (es : List (LazyIter α)) (s : List α), AllMaps es →
    denoteAll tru es s.reverse = (denoteAll tru es s).reverse
  | [], _, _ => rfl
  | e :: es, s, h => by
    have h2 := h e (List.mem_cons_self _ _)
    show denoteAll tru es (denoteIter tru e s.reverse) = _
    have hmap : ∀ t, denoteIter tru e t = t.map e.iteratee := by
      intro t; simp [denoteIter, h2]
    rw [hmap, List.map_reverse, denoteAll_maps_reverse tru es _
      (fun x hx => h x (List.mem_cons_of_mem _ hx))]
    show _ = (denoteAll tru es (denoteIter tru e s)).reverse
    rw [hmap]

theorem getView_append (x : ViewX) :
    ∀ (vs : List ViewX) (s e : Int),
    getView s e (vs ++ [x]) =
      (match x.vtype with
       | .drop => ((getView s e vs).1 + x.size, (getView s e vs).2)
       | .dropRight => ((getView s e vs).1, (getView s e vs).2 - x.size)
       | .take => ((getView s e vs).1, min (getView s e vs).2 ((getView s e vs).1 + x.size))
       | .takeRight => (max (getView s e vs).1 ((getView s e vs).2 - x.size), (getView s e vs).2))
  | [], s, e => by
    rcases x with ⟨sz, vt⟩
    cases vt <;> rfl
  | ⟨sz, vt⟩ :: vs, s, e => by
    cases vt <;> exact getView_append x vs _ _

theorem streamOf_length_le {α : Type} (c : LazyCfg α) (A : List α) :
    (streamOf c A).length ≤ ((viewOf c A).2 - (viewOf c A).1).toNat := by
  rcases hv : viewOf c A with ⟨s, e⟩
  simp only [streamOf, viewOf] at hv ⊢
  rw [hv]
  split
  · simp [sliceOf]
  · simp [sliceOf]

theorem semOfList_of_tcnone {α : Type} (tru : α → Bool) (c : LazyCfg α) (A : List α)
    (h : c.takeCount = none) :
    semOfList tru c A = denoteAll tru (c.iteratees.getD []) (streamOf c A) := by
  rcases hv : viewOf c A with ⟨s, e⟩
  simp only [semOfList, h, minCap, hv]
  refine List.take_of_length_le ?_
  refine le_trans (denoteAll_length_le tru _ _) ?_
  have := streamOf_length_le c A
  rw [hv] at this
  exact this

theorem sliceOf_full {α : Type} (A : List α) : sliceOf A 0 (A.length : Int) = A := by
  simp [sliceOf]

/-- `semOf` of a fresh nested wrapper carrying one entry list over its inner
pipeline, direction `1`. -/
theorem semOfList_basic {α : Type} (tru : α → Bool) (l : List (LazyIter α)) (b : Bool)
    (A : List α) :
    semOfList tru { actions := none, dir := 1, dropCount := 0, filtered := b,
                    iteratees := some l, takeCount := none, views := none } A
      = denoteAll tru l A := by
  rw [semOfList_of_tcnone _ _ _ rfl]
  simp [streamOf, viewOf, getView, sliceOf_full]

theorem semOfList_revCfg {α : Type} (tru : α → Bool) (A : List α) :
    semOfList tru { baseCfg with dir := -1, filtered := true } A = A.reverse := by
  rw [semOfList_of_tcnone _ _ _ rfl]
  simp [streamOf, viewOf, getView, sliceOf_full, baseCfg, denoteAll]

theorem sliceOf_view_drop {α : Type} (A : List α) (s e : Int) (n : Nat) (hs : 0 ≤ s) :
    sliceOf A (s + (n : Int)) e = (sliceOf A s e).drop n := by
  simp only [sliceOf, List.drop_take, List.drop_drop]
  have h1 : (s + (n : Int)).toNat = n + s.toNat := by omega
  have h2 : (e - (s + (n : Int))).toNat = (e - s).toNat - n := by omega
  rw [h1, h2, Nat.add_comm]

theorem sliceOf_view_take {α : Type} (A : List α) (s e : Int) (n : Nat) :
    sliceOf A s (min e (s + (n : Int))) = (sliceOf A s e).take n := by
  simp only [sliceOf, List.take_take]
  have h1 : (min e (s + (n : Int)) - s).toNat = min n (e - s).toNat := by omega
  rw [h1]

theorem sliceOf_view_dropRight {α : Type} (A : List α) (s e : Int) (n : Nat) (hs : 0 ≤ s)
    (he : e ≤ A.length) :
    (sliceOf A s (e - (n : Int))).reverse = ((sliceOf A s e).reverse).drop n := by
  rw [List.drop_reverse, sliceOf_length A s e hs he]
  congr 1
  simp only [sliceOf, List.take_take]
  have h1 : (e - (n : Int) - s).toNat = min ((e - s).toNat - n) (e - s).toNat := by omega
  rw [h1]

theorem sliceOf_view_takeRight {α : Type} (A : List α) (s e : Int) (n : Nat) (hs : 0 ≤ s)
    (he : e ≤ A.length) :
    (sliceOf A (max s (e - (n : Int))) e).reverse = ((sliceOf A s e).reverse).take n := by
  rw [List.take_reverse, sliceOf_length A s e hs he]
  congr 1
  simp only [sliceOf, List.drop_take, List.drop_drop]
  have h1 : (max s (e - (n : Int))).toNat = ((e - s).toNat - n) + s.toNat := by omega
  have h2 : (e - max s (e - (n : Int))).toNat = (e - s).toNat - ((e - s).toNat - n) := by omega
  rw [h1, h2, Nat.add_comm]

/-- `baseSlice(l, 0, i)` with `0 ≤ i` is `take`. -/
theorem baseSlice_take {α : Type} (l : List α) (i : Int) (hi : 0 ≤ i) :
    baseSlice l (some (.int 0)) (some (.int i)) = l.take i.toNat := by
  simp only [baseSlice]
  norm_num
  split_ifs <;> omega

/-- `baseSlice(l, i)` with `0 ≤ i` is `drop`. -/
theorem baseSlice_drop {α : Type} (l : List α) (i : Int) (hi : 0 ≤ i) :
    baseSlice l (some (.int i)) none = l.drop i.toNat := by
  simp only [baseSlice]
  split_ifs <;> try omega
  · rw [List.take_zero, eq_comm, List.drop_eq_nil_iff]
    omega
  · exact List.take_of_length_le (by rw [List.length_drop]; omega)

theorem baseSlice_nan_end {α : Type} (l : List α) :
    baseSlice l (some (.int 0)) (some .nan) = [] := by
  simp only [baseSlice]
  norm_num

theorem baseSlice_nan_start {α : Type} (l : List α) :
    baseSlice l (some .nan) none = l := by
  simp only [baseSlice]
  norm_num
  split_ifs <;> omega

/-- The eager `take` is plain list `take` of the normalized count. -/
theorem array_take_eq {α : Type} (l : List α) (n0 : Option JsNum) :
    array_take l n0 = l.take (normN n0) := by
  by_cases hl : l.length = 0
  · rw [List.length_eq_zero] at hl
    subst hl
    simp [array_take, normN]
  · rcases n0 with _ | n
    · simp only [array_take, hl, if_false, Option.getD, normN]
      norm_num
      rw [baseSlice_take l 1 (by omega)]
      norm_num
    · rcases n with i | _
      · simp only [array_take, hl, if_false, Option.getD, normN, jsFloorOr0]
        by_cases hi : i < 0
        · rw [if_pos hi, baseSlice_take l 0 le_rfl, List.take_eq_take]
          omega
        · rw [if_neg hi, baseSlice_take l i (by omega), List.take_eq_take]
          omega
      · simp only [array_take, hl, if_false, Option.getD, normN, jsFloorOr0]
        rw [baseSlice_nan_end, eq_comm]
        simp

/-- The eager `drop` is plain list `drop` of the normalized count. -/
theorem array_drop_eq {α : Type} (l : List α) (n0 : Option JsNum) :
    array_drop l n0 = l.drop (normN n0) := by
  by_cases hl : l.length = 0
  · rw [List.length_eq_zero] at hl
    subst hl
    simp [array_drop, normN]
  · rcases n0 with _ | n
    · simp only [array_drop, hl, if_false, Option.getD, normN]
      norm_num
      rw [baseSlice_drop l 1 (by omega)]
      norm_num
    · rcases n with i | _
      · simp only [array_drop, hl, if_false, Option.getD, normN, jsFloorOr0]
        by_cases hi : i < 0
        · rw [if_pos hi, baseSlice_drop l 0 le_rfl]
          have h : (max i 0).toNat = 0 := by omega
          rw [h]
          rfl
        · rw [if_neg hi, baseSlice_drop l i (by omega)]
          have h : (max i 0).toNat = i.toNat := by omega
          rw [h]
      · simp only [array_drop, hl, if_false, Option.getD, normN, jsFloorOr0]
        rw [baseSlice_nan_start]
        simp

/-! ### Per-method transitions of the pure denotation -/

theorem semOfList_def {α : Type} (tru : α → Bool) (c : LazyCfg α) (A : List α) :
    semOfList tru c A
      = (denoteAll tru (c.iteratees.getD []) (streamOf c A)).take
          (minCap ((viewOf c A).2 - (viewOf c A).1) c.takeCount).toNat := rfl

theorem semOfList_push_map {α : Type} (tru : α → Bool) (c : LazyCfg α) (A : List α) (f : α → α)
    (b : Bool) :
    semOfList tru { c with iteratees := some (c.iteratees.getD [] ++ [mkIter 2 f]),
                           filtered := b } A
      = (semOfList tru c A).map f := by
  rw [semOfList_def, semOfList_def]
  show ((denoteAll tru (c.iteratees.getD [] ++ [mkIter 2 f]) (streamOf c A)).take _) = _
  rw [denoteAll_append_one]
  have hden : ∀ t, denoteIter tru (mkIter 2 f) t = t.map f := by
    intro t
    simp [denoteIter, mkIter]
  rw [hden, List.map_take]
  rfl

theorem semOfList_push_takeWhile {α : Type} (tru : α → Bool) (c : LazyCfg α) (A : List α)
    (f : α → α) (b : Bool) :
    semOfList tru { c with iteratees := some (c.iteratees.getD [] ++ [mkIter 3 f]),
                           filtered := b } A
      = (semOfList tru c A).takeWhile (fun v => tru (f v)) := by
  rw [semOfList_def, semOfList_def]
  show ((denoteAll tru (c.iteratees.getD [] ++ [mkIter 3 f]) (streamOf c A)).take _) = _
  rw [denoteAll_append_one]
  have hden : ∀ t : List α, denoteIter tru (mkIter 3 f) t = t.takeWhile (fun v => tru (f v)) := by
    intro t
    simp [denoteIter, mkIter]
  rw [hden, takeWhile_take_comm]
  rfl

theorem semOfList_push_filter {α : Type} (tru : α → Bool) (c : LazyCfg α) (A : List α)
    (f : α → α) (b : Bool) (htc : c.takeCount = none) :
    semOfList tru { c with iteratees := some (c.iteratees.getD [] ++ [mkIter 1 f]),
                           filtered := b } A
      = (semOfList tru c A).filter (fun v => tru (f v)) := by
  rw [semOfList_of_tcnone tru _ A (by simpa using htc), semOfList_of_tcnone tru c A htc]
  show denoteAll tru (c.iteratees.getD [] ++ [mkIter 1 f]) (streamOf c A) = _
  rw [denoteAll_append_one]
  simp [denoteIter, mkIter]

theorem semOfList_push_dropWhile {α : Type} (tru : α → Bool) (c : LazyCfg α) (A : List α)
    (f : α → α) (b : Bool) (htc : c.takeCount = none) :
    semOfList tru { c with iteratees := some (c.iteratees.getD [] ++ [mkIter 0 f]),
                           filtered := b } A
      = (semOfList tru c A).dropWhile (fun v => tru (f v)) := by
  rw [semOfList_of_tcnone tru _ A (by simpa using htc), semOfList_of_tcnone tru c A htc]
  show denoteAll tru (c.iteratees.getD [] ++ [mkIter 0 f]) (streamOf c A) = _
  rw [denoteAll_append_one]
  simp [denoteIter, mkIter]

theorem semOfList_tc_take {α : Type} (tru : α → Bool) (c : LazyCfg α) (A : List α) (n : Nat) :
    semOfList tru { c with takeCount := some (match c.takeCount with
                                              | none => n
                                              | some m => min m n) } A
      = (semOfList tru c A).take n := by
  rw [semOfList_def, semOfList_def, List.take_take]
  show (denoteAll tru (c.iteratees.getD []) (streamOf c A)).take _ = _
  congr 1
  have hview : (viewOf { c with takeCount := some (match c.takeCount with
                                                   | none => n
                                                   | some m => min m n) } A) = viewOf c A := rfl
  rw [hview]
  show (minCap ((viewOf c A).2 - (viewOf c A).1) (some (match c.takeCount with
        | none => n
        | some m => min m n))).toNat = _
  cases htc : c.takeCount with
  | none => simp [minCap, htc]; omega
  | some m => simp [minCap, htc]; omega

theorem streamOf_congr {α : Type} (c c' : LazyCfg α) (A : List α)
    (h1 : c'.views = c.views) (h2 : c'.dir = c.dir) :
    streamOf c' A = streamOf c A := by
  simp [streamOf, viewOf, h1, h2]

theorem semOfList_push_take_view {α : Type} (tru : α → Bool) (c : LazyCfg α) (A : List α)
    (n : Nat) (hm : AllMaps (c.iteratees.getD [])) (htc : c.takeCount = none)
    (hdir : c.dir = 1 ∨ c.dir = -1) :
    semOfList tru { c with views := some (c.views.getD []
        ++ [⟨n, if c.dir < 0 then .takeRight else .take⟩]) } A
      = (semOfList tru c A).take n := by
  rw [semOfList_of_tcnone tru _ A (by simpa using htc), semOfList_of_tcnone tru c A htc]
  have hb := getView_bounds (A.length : Int) (c.views.getD []) 0 (A.length : Int) le_rfl le_rfl
  rcases hv : getView 0 (A.length : Int) (c.views.getD []) with ⟨s, e⟩
  rw [hv] at hb
  have hstream : streamOf { c with views := some (c.views.getD []
      ++ [⟨n, if c.dir < 0 then .takeRight else .take⟩]) } A = (streamOf c A).take n := by
    rcases hdir with hdir | hdir
    · simp only [streamOf, viewOf, hdir]
      norm_num
      rw [getView_append, hv]
      norm_num
      rw [sliceOf_view_take]
    · simp only [streamOf, viewOf, hdir]
      norm_num
      rw [getView_append, hv]
      norm_num
      rw [sliceOf_view_takeRight A s e n hb.1 hb.2]
  rw [hstream, denoteAll_maps_take tru _ _ _ hm]

theorem semOfList_push_drop_view {α : Type} (tru : α → Bool) (c : LazyCfg α) (A : List α)
    (n : Nat) (hm : AllMaps (c.iteratees.getD [])) (htc : c.takeCount = none)
    (hdir : c.dir = 1 ∨ c.dir = -1) :
    semOfList tru { c with views := some (c.views.getD []
        ++ [⟨n, if c.dir < 0 then .dropRight else .drop⟩]) } A
      = (semOfList tru c A).drop n := by
  rw [semOfList_of_tcnone tru _ A (by simpa using htc), semOfList_of_tcnone tru c A htc]
  have hb := getView_bounds (A.length : Int) (c.views.getD []) 0 (A.length : Int) le_rfl le_rfl
  rcases hv : getView 0 (A.length : Int) (c.views.getD []) with ⟨s, e⟩
  rw [hv] at hb
  have hstream : streamOf { c with views := some (c.views.getD []
      ++ [⟨n, if c.dir < 0 then .dropRight else .drop⟩]) } A = (streamOf c A).drop n := by
    rcases hdir with hdir | hdir
    · simp only [streamOf, viewOf, hdir]
      norm_num
      rw [getView_append, hv]
      norm_num
      rw [sliceOf_view_drop A s e n hb.1]
    · simp only [streamOf, viewOf, hdir]
      norm_num
      rw [getView_append, hv]
      norm_num
      rw [sliceOf_view_dropRight A s e n hb.1 hb.2]
  rw [hstream, denoteAll_maps_drop tru _ _ _ hm]

theorem semOfList_flip_dir {α : Type} (tru : α → Bool) (c : LazyCfg α) (A : List α)
    (hm : AllMaps (c.iteratees.getD [])) (htc : c.takeCount = none)
    (hdir : c.dir = 1 ∨ c.dir = -1) :
    semOfList tru { c with dir := c.dir * -1 } A = (semOfList tru c A).reverse := by
  rw [semOfList_of_tcnone tru _ A (by simpa using htc), semOfList_of_tcnone tru c A htc]
  have hstream : streamOf { c with dir := c.dir * -1 } A = (streamOf c A).reverse := by
    rcases hdir with hdir | hdir
    · simp [streamOf, viewOf, hdir]
    · simp [streamOf, viewOf, hdir]
  rw [hstream, denoteAll_maps_reverse tru _ _ hm]

/-! ### Wrapper-level method transitions -/

theorem lazyPushIter_clone {α : Type} (ty : Nat) (f : α → α) (w : LazyWrapper α)
    (h : (w.cfg.filtered && (ty == 0)) = false) :
    lazyPushIter ty f w = withCfg (lazyClone w) (fun c =>
      { c with iteratees := some (c.iteratees.getD [] ++ [mkIter ty f]),
               filtered := w.cfg.filtered || (ty != 2) }) := by
  simp [lazyPushIter, h]

theorem lazyPushIter_nest {α : Type} (ty : Nat) (f : α → α) (w : LazyWrapper α)
    (h : (w.cfg.filtered && (ty == 0)) = true) :
    lazyPushIter ty f w = .over w { baseCfg with
                                    iteratees := some [mkIter ty f],
                                    filtered := w.cfg.filtered || (ty != 2) } := by
  simp only [lazyPushIter, h, if_true]
  rfl

theorem semOf_map_call {α : Type} (tru : α → Bool) (f : α → α) (w : LazyWrapper α) :
    semOf tru (lazyPushIter 2 f w) = (semOf tru w).map f := by
  rw [lazyPushIter_clone 2 f w (by simp)]
  cases w with
  | base v c =>
    cases v with
    | arr A => exact semOfList_push_map tru c A f (c.filtered || ((2 : Nat) != 2))
    | raw x => rfl
  | over w0 c => exact semOfList_push_map tru c (semOf tru w0) f (c.filtered || ((2 : Nat) != 2))

theorem semOf_takeWhile_call {α : Type} (tru : α → Bool) (f : α → α) (w : LazyWrapper α) :
    semOf tru (lazyPushIter 3 f w) = (semOf tru w).takeWhile (fun v => tru (f v)) := by
  rw [lazyPushIter_clone 3 f w (by simp)]
  cases w with
  | base v c =>
    cases v with
    | arr A => exact semOfList_push_takeWhile tru c A f (c.filtered || ((3 : Nat) != 2))
    | raw x => rfl
  | over w0 c => exact semOfList_push_takeWhile tru c (semOf tru w0) f (c.filtered || ((3 : Nat) != 2))

theorem semOf_filter_call {α : Type} (tru : α → Bool) (f : α → α) (w : LazyWrapper α)
    (hcap : w.cfg.takeCount = none) :
    semOf tru (lazyPushIter 1 f w) = (semOf tru w).filter (fun v => tru (f v)) := by
  rw [lazyPushIter_clone 1 f w (by simp)]
  cases w with
  | base v c =>
    cases v with
    | arr A => exact semOfList_push_filter tru c A f (c.filtered || ((1 : Nat) != 2)) hcap
    | raw x => rfl
  | over w0 c => exact semOfList_push_filter tru c (semOf tru w0) f (c.filtered || ((1 : Nat) != 2)) hcap

theorem semOf_dropWhile_nest {α : Type} (tru : α → Bool) (f : α → α) (w : LazyWrapper α)
    (hf : w.cfg.filtered = true) :
    semOf tru (lazyPushIter 0 f w) = (semOf tru w).dropWhile (fun v => tru (f v)) := by
  rw [lazyPushIter_nest 0 f w (by simp [hf])]
  have h1 : semOf tru (.over w { baseCfg with
                                 iteratees := some [mkIter 0 f],
                                 filtered := w.cfg.filtered || ((0 : Nat) != 2) })
      = denoteAll tru [mkIter 0 f] (semOf tru w) :=
    semOfList_basic tru [mkIter 0 f] _ (semOf tru w)
  rw [h1]
  show denoteIter tru (mkIter 0 f) (semOf tru w) = _
  simp [denoteIter, mkIter]

theorem semOf_dropWhile_flat {α : Type} (tru : α → Bool) (f : α → α) (w : LazyWrapper α)
    (hf : w.cfg.filtered = false) (hcap : w.cfg.takeCount = none) :
    semOf tru (lazyPushIter 0 f w) = (semOf tru w).dropWhile (fun v => tru (f v)) := by
  rw [lazyPushIter_clone 0 f w (by simp [hf])]
  cases w with
  | base v c =>
    cases v with
    | arr A => exact semOfList_push_dropWhile tru c A f (c.filtered || ((0 : Nat) != 2)) hcap
    | raw x => rfl
  | over w0 c => exact semOfList_push_dropWhile tru c (semOf tru w0) f (c.filtered || ((0 : Nat) != 2)) hcap

/-- Invariant of pipelines produced by chains of lazy calls on an array:
array-backed, fresh entries, unit direction; an unfiltered wrapper has no
take cap and only map entries; nested wrappers are filtered. -/
def Unfl {α : Type} (c : LazyCfg α) : Prop :=
  c.takeCount = none ∧ AllMaps (c.iteratees.getD [])

def Inv {α : Type} : LazyWrapper α → Prop
  | .base v c => (∃ A, v = .arr A) ∧ WfCfg c ∧ (c.filtered = false → Unfl c)
  | .over w c => Inv w ∧ WfCfg c ∧ c.filtered = true

theorem Inv_Wf {α : Type} : ∀ (w : LazyWrapper α), Inv w → Wf w
  | .base _ _, ⟨hA, hc, _⟩ => ⟨hA, hc⟩
  | .over w _, ⟨hw, hc, _⟩ => ⟨Inv_Wf w hw, hc⟩

theorem semOf_take_call {α : Type} (tru : α → Bool) (n0 : Option JsNum) (w : LazyWrapper α)
    (hInv : Inv w) :
    semOf tru (lazyTake w n0) = (semOf tru w).take (normN n0) := by
  by_cases hf : w.cfg.filtered = true
  · have heq : lazyTake w n0 = withCfg (lazyClone w) (fun c =>
        { c with takeCount := some (match c.takeCount with
                                    | none => normN n0
                                    | some m => min m (normN n0)) }) := by
      simp [lazyTake, hf]
    rw [heq]
    cases w with
    | base v c =>
      cases v with
      | arr A => exact semOfList_tc_take tru (cloneCfg c) A (normN n0)
      | raw x =>
        obtain ⟨⟨A, hA⟩, _, _⟩ := hInv
        simp at hA
    | over w0 c => exact semOfList_tc_take tru (cloneCfg c) (semOf tru w0) (normN n0)
  · replace hf : w.cfg.filtered = false := by simpa using hf
    have heq : lazyTake w n0 = withCfg (lazyClone w) (fun c =>
        { c with views := some (c.views.getD []
            ++ [⟨normN n0, if c.dir < 0 then .takeRight else .take⟩]) }) := by
      simp [lazyTake, hf]
    rw [heq]
    cases w with
    | base v c =>
      obtain ⟨⟨A, rfl⟩, hcfg, hunf⟩ := hInv
      have hu := hunf hf
      exact semOfList_push_take_view tru (cloneCfg c) A (normN n0) hu.2 hu.1 hcfg.2
    | over w0 c =>
      obtain ⟨_, _, hft⟩ := hInv
      have hf2 : c.filtered = false := hf
      rw [hft] at hf2
      exact absurd hf2 (by simp)

theorem semOf_drop_call {α : Type} (tru : α → Bool) (n0 : Option JsNum) (w : LazyWrapper α)
    (hInv : Inv w) :
    semOf tru (lazyDrop w n0) = (semOf tru w).drop (normN n0) := by
  by_cases hf : w.cfg.filtered = true
  · have heq : lazyDrop w n0 = .over w { baseCfg with
        iteratees := some [{ mkIter 0 (id : α → α) with limit := (normN n0 : Int) }],
        filtered := true } := by
      rw [show lazyDrop w n0 = withCfg (lazyPushIter 0 id w)
          (fun c => { c with iteratees := c.iteratees.map (setLastLimit (normN n0 : Int)) })
        from by simp [lazyDrop, hf]]
      rw [lazyPushIter_nest 0 id w (by simp [hf])]
      simp [withCfg, hf, setLastLimit]
    rw [heq]
    have h1 : semOf tru (.over w { baseCfg with
        iteratees := some [{ mkIter 0 (id : α → α) with limit := (normN n0 : Int) }],
        filtered := true })
        = denoteAll tru [{ mkIter 0 (id : α → α) with limit := (normN n0 : Int) }]
            (semOf tru w) :=
      semOfList_basic tru _ _ (semOf tru w)
    rw [h1, denoteAll_one]
    have hlim : ((normN n0 : Int)) > -1 := by omega
    simp [denoteIter, mkIter, hlim]
  · replace hf : w.cfg.filtered = false := by simpa using hf
    have heq : lazyDrop w n0 = withCfg (lazyClone w) (fun c =>
        { c with views := some (c.views.getD []
            ++ [⟨normN n0, if c.dir < 0 then .dropRight else .drop⟩]) }) := by
      simp [lazyDrop, hf]
    rw [heq]
    cases w with
    | base v c =>
      obtain ⟨⟨A, rfl⟩, hcfg, hunf⟩ := hInv
      have hu := hunf hf
      exact semOfList_push_drop_view tru (cloneCfg c) A (normN n0) hu.2 hu.1 hcfg.2
    | over w0 c =>
      obtain ⟨_, _, hft⟩ := hInv
      have hf2 : c.filtered = false := hf
      rw [hft] at hf2
      exact absurd hf2 (by simp)

theorem semOf_reverse_call {α : Type} (tru : α → Bool) (w : LazyWrapper α) (hInv : Inv w) :
    semOf tru (lazyReverse w) = (semOf tru w).reverse := by
  by_cases hf : w.cfg.filtered = true
  · have heq : lazyReverse w = .over w { baseCfg with dir := -1, filtered := true } := by
      simp [lazyReverse, hf]
    rw [heq]
    exact semOfList_revCfg tru (semOf tru w)
  · replace hf : w.cfg.filtered = false := by simpa using hf
    have heq : lazyReverse w = withCfg (lazyClone w) (fun c => { c with dir := c.dir * -1 }) := by
      simp [lazyReverse, hf]
    rw [heq]
    cases w with
    | base v c =>
      obtain ⟨⟨A, rfl⟩, hcfg, hunf⟩ := hInv
      have hu := hunf hf
      exact semOfList_flip_dir tru (cloneCfg c) A hu.2 hu.1 hcfg.2
    | over w0 c =>
      obtain ⟨_, _, hft⟩ := hInv
      have hf2 : c.filtered = false := hf
      rw [hft] at hf2
      exact absurd hf2 (by simp)

/-! ### Good chains: fusing is exact unless a filtering op follows a cap -/

/-- Abstract `(filtered, capped)` state of a pipeline along a chain of
calls: `capped` records whether a `take` has been folded into
`__takeCount__` (which happens when `take` hits a filtered pipeline). -/
def stepState {α : Type} (st : Bool × Bool) : Call α → Bool × Bool
  | .map _ => st
  | .filter _ => (true, st.2)
  | .dropWhile _ => (true, false)
  | .takeWhile _ => (true, st.2)
  | .take _ => (st.1, st.1 || st.2)
  | .drop _ => (st.1, false)
  | .reverse => (st.1, false)

/-- A chain is good from a given state when no `filter` is applied to a
capped pipeline (the one combination where the output cap is applied at
the wrong point of the fused pass). -/
def goodSteps {α : Type} : Bool × Bool → List (Call α) → Bool
  | _, [] => true
  | st, c :: cs =>
    (match c with
     | .filter _ => !st.2
     | _ => true) && goodSteps (stepState st c) cs

def goodCalls {α : Type} (cs : List (Call α)) : Bool := goodSteps (false, false) cs

theorem cfg_withClone {α : Type} (w : LazyWrapper α) (g : LazyCfg α → LazyCfg α) :
    (withCfg (lazyClone w) g).cfg = g (cloneCfg w.cfg) := by
  cases w <;> rfl

theorem cfg_over {α : Type} (w : LazyWrapper α) (c : LazyCfg α) :
    (LazyWrapper.over w c).cfg = c := rfl

theorem WfCfg_push {α : Type} (c : LazyCfg α) (ty : Nat) (f : α → α) (b : Bool) (h : WfCfg c) :
    WfCfg { c with iteratees := some (c.iteratees.getD [] ++ [mkIter ty f]), filtered := b } := by
  constructor
  · intro e he
    have he2 : e ∈ c.iteratees.getD [] ∨ e = mkIter ty f := by simpa using he
    rcases he2 with he2 | he2
    · exact h.1 e he2
    · subst he2
      exact ⟨rfl, rfl⟩
  · exact h.2

theorem inv_withClone {α : Type} (w : LazyWrapper α) (g : LazyCfg α → LazyCfg α) (h : Inv w)
    (hg1 : WfCfg (g (cloneCfg w.cfg)))
    (hg2 : (g (cloneCfg w.cfg)).filtered = false → Unfl (g (cloneCfg w.cfg)))
    (hg3 : w.cfg.filtered = true → (g (cloneCfg w.cfg)).filtered = true) :
    Inv (withCfg (lazyClone w) g) := by
  cases w with
  | base v c => exact ⟨h.1, hg1, hg2⟩
  | over w0 c => exact ⟨h.1, hg1, hg3 h.2.2⟩

theorem inv_pushIter_clone {α : Type} (ty : Nat) (f : α → α) (w : LazyWrapper α) (h : Inv w)
    (hno : (w.cfg.filtered && (ty == 0)) = false)
    (hunf : (w.cfg.filtered || (ty != 2)) = false →
      w.cfg.takeCount = none ∧ AllMaps (w.cfg.iteratees.getD []) ∧ ty = 2) :
    Inv (lazyPushIter ty f w) := by
  rw [lazyPushIter_clone ty f w hno]
  refine inv_withClone w _ h ?_ ?_ ?_
  · exact WfCfg_push (cloneCfg w.cfg) ty f _ (by
      cases w with
      | base v c => exact (h.2.1 : WfCfg c)
      | over w0 c => exact (h.2.1 : WfCfg c))
  · intro hf
    obtain ⟨htc, hAM, hty⟩ := hunf (by simpa using hf)
    refine ⟨htc, ?_⟩
    intro e he
    have he2 : e ∈ (cloneCfg w.cfg).iteratees.getD [] ∨ e = mkIter ty f := by simpa using he
    rcases he2 with he2 | he2
    · exact hAM e he2
    · subst he2
      simpa [mkIter] using hty
  · intro hf
    simp [hf]

theorem inv_over_entries {α : Type} (w : LazyWrapper α) (l : List (LazyIter α)) (h : Inv w)
    (hl : ∀ e ∈ l, e.done = false ∧ e.count = 0) :
    Inv (.over w { actions := none, dir := 1, dropCount := 0, filtered := true,
                   iteratees := some l, takeCount := none, views := none }) :=
  ⟨h, ⟨by simpa using hl, Or.inl rfl⟩, rfl⟩

/-- Invariant and `(filtered, capped)` bookkeeping for every chainable call. -/
theorem applyCall_step {α : Type} (c : Call α) (w : LazyWrapper α) (h : Inv w) :
    Inv (applyCall c w) ∧
    ((applyCall c w).cfg.filtered, (applyCall c w).cfg.takeCount.isSome)
      = stepState (w.cfg.filtered, w.cfg.takeCount.isSome) c := by
  have hWf : WfCfg w.cfg := by
    cases w with
    | base v c => exact h.2.1
    | over w0 c => exact h.2.1
  have hUn : w.cfg.filtered = false → Unfl w.cfg := by
    cases w with
    | base v c => exact h.2.2
    | over w0 c =>
      intro hf
      have hf2 : c.filtered = false := hf
      rw [h.2.2] at hf2
      exact absurd hf2 (by simp)
  rcases c with f | f | f | f | n | n | _
  · -- map
    constructor
    · refine inv_pushIter_clone 2 f w h (by simp) ?_
      intro hf
      simp only [Bool.or_eq_false_iff] at hf
      obtain ⟨hu1, hu2⟩ := hUn hf.1
      exact ⟨hu1, hu2, rfl⟩
    · rw [show applyCall (.map f) w = lazyPushIter 2 f w from rfl,
        lazyPushIter_clone 2 f w (by simp), cfg_withClone]
      simp [stepState, cloneCfg]
  · -- filter
    constructor
    · exact inv_pushIter_clone 1 f w h (by simp) (by simp)
    · rw [show applyCall (.filter f) w = lazyPushIter 1 f w from rfl,
        lazyPushIter_clone 1 f w (by simp), cfg_withClone]
      simp [stepState, cloneCfg]
  · -- dropWhile
    constructor
    · show Inv (lazyPushIter 0 f w)
      by_cases hf : w.cfg.filtered = true
      · rw [lazyPushIter_nest 0 f w (by simp [hf])]
        exact ⟨h, ⟨by simp [baseCfg, mkIter], Or.inl rfl⟩, by simp [baseCfg, hf]⟩
      · replace hf : w.cfg.filtered = false := by simpa using hf
        exact inv_pushIter_clone 0 f w h (by simp [hf]) (by simp)
    · by_cases hf : w.cfg.filtered = true
      · rw [show applyCall (.dropWhile f) w = lazyPushIter 0 f w from rfl,
          lazyPushIter_nest 0 f w (by simp [hf]), cfg_over]
        simp [stepState, baseCfg, hf]
      · replace hf : w.cfg.filtered = false := by simpa using hf
        rw [show applyCall (.dropWhile f) w = lazyPushIter 0 f w from rfl,
          lazyPushIter_clone 0 f w (by simp [hf]), cfg_withClone]
        have := (hUn hf).1
        simp [stepState, cloneCfg, hf, this]
  · -- takeWhile
    constructor
    · exact inv_pushIter_clone 3 f w h (by simp) (by simp)
    · rw [show applyCall (.takeWhile f) w = lazyPushIter 3 f w from rfl,
        lazyPushIter_clone 3 f w (by simp), cfg_withClone]
      simp [stepState, cloneCfg]
  · -- take
    by_cases hf : w.cfg.filtered = true
    · have heq : applyCall (.take n) w = withCfg (lazyClone w) (fun c =>
          { c with takeCount := some (match c.takeCount with
                                      | none => normN n
                                      | some m => min m (normN n)) }) := by
        show lazyTake w n = _
        simp [lazyTake, hf]
      constructor
      · rw [heq]
        refine inv_withClone w _ h ?_ ?_ ?_
        · exact ⟨hWf.1, hWf.2⟩
        · intro hfc
          have hfc2 : w.cfg.filtered = false := hfc
          rw [hf] at hfc2
          exact absurd hfc2 (by simp)
        · intro _
          exact hf
      · rw [heq, cfg_withClone]
        simp [stepState, cloneCfg, hf]
    · replace hf : w.cfg.filtered = false := by simpa using hf
      have heq : applyCall (.take n) w = withCfg (lazyClone w) (fun c =>
          { c with views := some (c.views.getD []
              ++ [⟨normN n, if c.dir < 0 then .takeRight else .take⟩]) }) := by
        show lazyTake w n = _
        simp [lazyTake, hf]
      constructor
      · rw [heq]
        refine inv_withClone w _ h ?_ ?_ ?_
        · exact ⟨hWf.1, hWf.2⟩
        · intro _
          exact ⟨(hUn hf).1, (hUn hf).2⟩
        · intro hfc
          rw [hf] at hfc
          exact absurd hfc (by simp)
      · rw [heq, cfg_withClone]
        have := (hUn hf).1
        simp [stepState, cloneCfg, hf, this]
  · -- drop
    by_cases hf : w.cfg.filtered = true
    · have heq : applyCall (.drop n) w = .over w { baseCfg with
          iteratees := some [{ mkIter 0 (id : α → α) with limit := (normN n : Int) }],
          filtered := true } := by
        show lazyDrop w n = _
        rw [show lazyDrop w n = withCfg (lazyPushIter 0 id w)
            (fun c => { c with iteratees := c.iteratees.map (setLastLimit (normN n : Int)) })
          from by simp [lazyDrop, hf]]
        rw [lazyPushIter_nest 0 id w (by simp [hf])]
        simp [withCfg, hf, setLastLimit]
      constructor
      · rw [heq]
        refine ⟨h, ⟨?_, Or.inl rfl⟩, rfl⟩
        intro e he
        simp [baseCfg] at he
        subst he
        exact ⟨rfl, rfl⟩
      · rw [heq, cfg_over]
        simp [stepState, baseCfg, hf]
    · replace hf : w.cfg.filtered = false := by simpa using hf
      have heq : applyCall (.drop n) w = withCfg (lazyClone w) (fun c =>
          { c with views := some (c.views.getD []
              ++ [⟨normN n, if c.dir < 0 then .dropRight else .drop⟩]) }) := by
        show lazyDrop w n = _
        simp [lazyDrop, hf]
      constructor
      · rw [heq]
        refine inv_withClone w _ h ?_ ?_ ?_
        · exact ⟨hWf.1, hWf.2⟩
        · intro _
          exact ⟨(hUn hf).1, (hUn hf).2⟩
        · intro hfc
          rw [hf] at hfc
          exact absurd hfc (by simp)
      · rw [heq, cfg_withClone]
        have := (hUn hf).1
        simp [stepState, cloneCfg, hf, this]
  · -- reverse
    by_cases hf : w.cfg.filtered = true
    · have heq : applyCall (.reverse) w = .over w { baseCfg with dir := -1, filtered := true } := by
        show lazyReverse w = _
        simp [lazyReverse, hf]
      constructor
      · rw [heq]
        exact ⟨h, ⟨by simp [baseCfg], Or.inr rfl⟩, rfl⟩
      · rw [heq, cfg_over]
        simp [stepState, baseCfg, hf]
    · replace hf : w.cfg.filtered = false := by simpa using hf
      have heq : applyCall (.reverse) w = withCfg (lazyClone w)
          (fun c => { c with dir := c.dir * -1 }) := by
        show lazyReverse w = _
        simp [lazyReverse, hf]
      constructor
      · rw [heq]
        refine inv_withClone w _ h ?_ ?_ ?_
        · refine ⟨hWf.1, ?_⟩
          rcases hWf.2 with hd | hd <;> simp [cloneCfg, hd]
        · intro _
          exact ⟨(hUn hf).1, (hUn hf).2⟩
        · intro hfc
          rw [hf] at hfc
          exact absurd hfc (by simp)
      · rw [heq, cfg_withClone]
        have := (hUn hf).1
        simp [stepState, cloneCfg, hf, this]

/-- The `semOf` action of every chainable call equals its eager fallback,
provided `filter` never hits a capped pipeline. -/
theorem applyCall_sem {α : Type} (tru : α → Bool) (c : Call α) (w : LazyWrapper α) (h : Inv w)
    (hcap : ∀ f, c = .filter f → w.cfg.takeCount = none) :
    semOf tru (applyCall c w) = eagerCall tru c (semOf tru w) := by
  have hUn : w.cfg.filtered = false → Unfl w.cfg := by
    cases w with
    | base v c => exact h.2.2
    | over w0 c =>
      intro hf
      have hf2 : c.filtered = false := hf
      rw [h.2.2] at hf2
      exact absurd hf2 (by simp)
  rcases c with f | f | f | f | n | n | _
  · exact semOf_map_call tru f w
  · exact semOf_filter_call tru f w (hcap f rfl)
  · by_cases hf : w.cfg.filtered = true
    · exact semOf_dropWhile_nest tru f w hf
    · replace hf : w.cfg.filtered = false := by simpa using hf
      exact semOf_dropWhile_flat tru f w hf (hUn hf).1
  · exact semOf_takeWhile_call tru f w
  · rw [show eagerCall tru (.take n) (semOf tru w) = array_take (semOf tru w) n from rfl,
      array_take_eq]
    exact semOf_take_call tru n w h
  · rw [show eagerCall tru (.drop n) (semOf tru w) = array_drop (semOf tru w) n from rfl,
      array_drop_eq]
    exact semOf_drop_call tru n w h
  · exact semOf_reverse_call tru w h

theorem goodSteps_cons {α : Type} (st : Bool × Bool) (c : Call α) (cs : List (Call α)) :
    goodSteps st (c :: cs)
      = ((match c with | Call.filter _ => !st.2 | _ => true)
         && goodSteps (stepState st c) cs) := rfl

/-- Master induction: over a good chain the fused pipeline denotes exactly
the step-by-step eager evaluation. -/
theorem fusion_go {α : Type} (tru : α → Bool) :
    ∀ (cs : List (Call α)) (w : LazyWrapper α), Inv w →
    goodSteps (w.cfg.filtered, w.cfg.takeCount.isSome) cs = true →
    Inv (List.foldl (fun x c => applyCall c x) w cs) ∧
    semOf tru (List.foldl (fun x c => applyCall c x) w cs) = eagerRun tru cs (semOf tru w)
  | [], w, h, _ => ⟨h, rfl⟩
  | c :: cs, w, h, hgood => by
    rw [goodSteps_cons, Bool.and_eq_true] at hgood
    obtain ⟨hstep1, hstep2⟩ := applyCall_step c w h
    have hcap : ∀ f, c = .filter f → w.cfg.takeCount = none := by
      intro f hc
      subst hc
      have h1 : (!(w.cfg.takeCount.isSome)) = true := hgood.1
      simp only [Bool.not_eq_true'] at h1
      exact Option.not_isSome_iff_eq_none.mp (by simp [h1])
    have hsem := applyCall_sem tru c w h hcap
    have hnext := fusion_go tru cs (applyCall c w) hstep1 (by rw [hstep2]; exact hgood.2)
    refine ⟨hnext.1, ?_⟩
    show semOf tru (List.foldl _ (applyCall c w) cs) = eagerRun tru (c :: cs) (semOf tru w)
    rw [hnext.2, hsem]
    rfl

theorem semOf_fresh_base {α : Type} (tru : α → Bool) (A : List α) :
    semOf tru (.base (.arr A) (baseCfg : LazyCfg α)) = A := by
  show semOfList tru baseCfg A = A
  rw [semOfList_of_tcnone tru baseCfg A rfl]
  simp [streamOf, viewOf, getView, sliceOf_full, baseCfg, denoteAll]

theorem inv_fresh_base {α : Type} (A : List α) :
    Inv (.base (.arr A) (baseCfg : LazyCfg α)) :=
  ⟨⟨A, rfl⟩, ⟨by simp [baseCfg], Or.inl rfl⟩, fun _ => ⟨rfl, by simp [baseCfg, AllMaps]⟩⟩

/-- Fusion equivalence for good chains, at the terminal evaluator. -/
theorem fusion_of_good {α : Type} [Inhabited α] (tru : α → Bool) (cs : List (Call α))
    (A : List α) (hgood : goodCalls cs = true) :
    lazyVal tru (build cs A) = some (.arr (eagerRun tru cs A)) := by
  have h := fusion_go tru cs (.base (.arr A) baseCfg) (inv_fresh_base A)
    (by simpa [baseCfg] using hgood)
  have hval := lazyVal_char tru _ (Inv_Wf _ h.1)
  show lazyVal tru (List.foldl (fun x c => applyCall c x) (.base (.arr A) baseCfg) cs)
      = some (.arr (eagerRun tru cs A))
  rw [hval, h.2, semOf_fresh_base]

theorem inv_build {α : Type} (cs : List (Call α)) (A : List α) : Inv (build cs A) := by
  have hgo : ∀ (cs : List (Call α)) (w : LazyWrapper α), Inv w →
      Inv (List.foldl (fun x c => applyCall c x) w cs) := by
    intro cs
    induction cs with
    | nil => exact fun w h => h
    | cons c cs ih =>
      intro w h
      exact ih (applyCall c w) (applyCall_step c w h).1
  exact hgo cs _ (inv_fresh_base A)

theorem denoteAll_append {α : Type} (tru : α → Bool) :
    ∀ (l1 l2 : List (LazyIter α)) (s : List α),
    denoteAll tru (l1 ++ l2) s = denoteAll tru l2 (denoteAll tru l1 s)
  | [], _, _ => rfl
  | e :: l1, l2, s => denoteAll_append tru l1 l2 (denoteIter tru e s)

theorem takeWhile_append_fail {α : Type} (p : α → Bool) (v : α) (hv : p v = false) :
    ∀ (xs ys : List α), (xs ++ v :: ys).takeWhile p = xs.takeWhile p
  | [], ys => by simp [List.takeWhile_cons, hv]
  | a :: xs, ys => by
    cases ha : p a <;> simp [List.takeWhile_cons, ha, takeWhile_append_fail p v hv xs ys]

/-- `filter`/`map` entries distribute over list append. -/
theorem denoteAll_mf_append {α : Type} (tru : α → Bool) :
    ∀ (es : List (LazyIter α)) (x y : List α),
    (∀ e ∈ es, e.type = 1 ∨ e.type = 2) →
    denoteAll tru es (x ++ y) = denoteAll tru es x ++ denoteAll tru es y
  | [], _, _, _ => rfl
  | e :: es, x, y, h => by
    have he := h e (List.mem_cons_self _ _)
    have hiter : denoteIter tru e (x ++ y) = denoteIter tru e x ++ denoteIter tru e y := by
      rcases he with he | he <;> simp [denoteIter, he]
    show denoteAll tru es (denoteIter tru e (x ++ y)) = _
    rw [hiter, denoteAll_mf_append tru es _ _ (fun z hz => h z (List.mem_cons_of_mem _ hz))]
    rfl

/-- Chains with no while-variant call. -/
def noWhileCalls {α : Type} : List (Call α) → Bool
  | [] => true
  | c :: cs =>
    (match c with
     | .dropWhile _ => false
     | .takeWhile _ => false
     | _ => true) && noWhileCalls cs

/-! ### The claims -/

/-- C1.  The fusion-equivalence claim as stated is false: chaining
`.filter(_ => true).take(2).filter(x => x > 2)` over `[1,2,3,4]` yields
`[3,4]` lazily, while eager step-by-step evaluation yields `[]` — a `take`
on a filtered pipeline becomes a cap on the final output and a later
`filter` changes which elements the cap counts. -/
theorem C1_counterexample :
    lazyVal truInt (build [.filter (fun _ => 1), .take (some (.int 2)),
        .filter (fun x => if x > 2 then 1 else 0)] [1, 2, 3, 4]) = some (.arr [3, 4])
    ∧ eagerRun truInt [.filter (fun _ => 1), .take (some (.int 2)),
        .filter (fun x => if x > 2 then 1 else 0)] [1, 2, 3, 4] = []
    ∧ lazyVal truInt (build [.filter (fun _ => 1), .take (some (.int 2)),
        .filter (fun x => if x > 2 then 1 else 0)] [1, 2, 3, 4])
      ≠ some (.arr (eagerRun truInt [.filter (fun _ => 1), .take (some (.int 2)),
        .filter (fun x => if x > 2 then 1 else 0)] [1, 2, 3, 4])) := by
  refine ⟨?_, ?_, ?_⟩ <;> decide

/-- C1 (amended).  Fusion equivalence holds for every chain of the
supported calls in which no `filter` is applied to a pipeline whose
`__takeCount__` cap has already been lowered (a `take` on a filtered
pipeline); in particular the example chain
`.filter(even).map(*10).take(2).value()` over `[1..6]` returns `[20,40]`
(see the witness). -/
theorem C1_fusion {α : Type} [Inhabited α] (tru : α → Bool) (cs : List (Call α)) (A : List α)
    (hgood : goodCalls cs = true) :
    lazyVal tru (build cs A) = some (.arr (eagerRun tru cs A)) :=
  fusion_of_good tru cs A hgood

theorem C1_fusion_witness :
    goodCalls [Call.filter (fun x : Int => if x % 2 == 0 then 1 else 0),
      .map (fun x => x * 10), .take (some (.int 2))] = true
    ∧ lazyVal truInt (build [.filter (fun x : Int => if x % 2 == 0 then 1 else 0),
        .map (fun x => x * 10), .take (some (.int 2))] [1, 2, 3, 4, 5, 6])
      = some (.arr [20, 40]) := by
  refine ⟨by decide, ?_⟩
  rw [C1_fusion truInt [.filter (fun x : Int => if x % 2 == 0 then 1 else 0),
    .map (fun x => x * 10), .take (some (.int 2))] [1, 2, 3, 4, 5, 6] (by decide)]
  decide

/-- C2.  Idempotent evaluation fails on the code: for the wrapper built by
`.filter(_ => true).drop(3)` over `[1,2]`, the first `value()` returns
`[]` but leaves the bounded-drop entry's `count` at `2` with `done` still
`false`; the staleness reset only fires when `done` is set, so the second
`value()` resumes the count and returns `[2]`. -/
theorem C2_second_evaluation_differs :
    lazyVal truInt (build [.filter (fun _ => 1), .drop (some (.int 3))] [1, 2])
      = some (.arr [])
    ∧ ((lazyValueS truInt (build [.filter (fun _ => 1), .drop (some (.int 3))] [1, 2])).bind
        fun p => lazyVal truInt p.2) = some (.arr [2]) := by
  refine ⟨?_, ?_⟩ <;> decide

/-- C3.  As stated the claim is false: appending `.reverse()` to a
pipeline that already contains `dropWhile` materializes the
front-evaluated result and reverses it, so the predicate is not evaluated
from the opposite end: over `[1,9,2]` with predicate `x == 1`,
`.dropWhile(q).reverse().value()` gives `[2,9]`, while evaluating the
predicate from the opposite end gives `[2,9,1]`. -/
theorem C3_counterexample :
    lazyVal truInt (build [.dropWhile (fun x => if x == 1 then 1 else 0), .reverse] [1, 9, 2])
      = some (.arr [2, 9])
    ∧ (([1, 9, 2] : List Int).reverse.dropWhile
        (fun x => truInt (if x == 1 then 1 else 0))) = [2, 9, 1]
    ∧ lazyVal truInt (build [.dropWhile (fun x => if x == 1 then 1 else 0), .reverse] [1, 9, 2])
      ≠ some (.arr (([1, 9, 2] : List Int).reverse.dropWhile
        (fun x => truInt (if x == 1 then 1 else 0)))) := by
  refine ⟨?_, ?_, ?_⟩ <;> decide

/-- C3 (amended).  While-predicates are evaluated from the opposite end of
the array exactly when the while call is made on an already-reversed
pipeline: `.reverse().dropWhile(q)`/`.reverse().takeWhile(q)` evaluate
`q` from the tail inward, whereas `.dropWhile(q).reverse()` /
`.takeWhile(q).reverse()` materialize the front-end evaluation through a
fresh nested wrapper (with fresh `done`/`count` tracking) and reverse it. -/
theorem C3_reverse_while {α : Type} [Inhabited α] (tru : α → Bool) (A : List α) (f : α → α) :
    lazyVal tru (build [.reverse, .dropWhile f] A)
      = some (.arr (A.reverse.dropWhile (fun v => tru (f v))))
    ∧ lazyVal tru (build [.reverse, .takeWhile f] A)
      = some (.arr (A.reverse.takeWhile (fun v => tru (f v))))
    ∧ lazyVal tru (build [.dropWhile f, .reverse] A)
      = some (.arr ((A.dropWhile (fun v => tru (f v))).reverse))
    ∧ lazyVal tru (build [.takeWhile f, .reverse] A)
      = some (.arr ((A.takeWhile (fun v => tru (f v))).reverse)) := by
  refine ⟨?_, ?_, ?_, ?_⟩
  · rw [fusion_of_good tru [.reverse, .dropWhile f] A rfl]
    rfl
  · rw [fusion_of_good tru [.reverse, .takeWhile f] A rfl]
    rfl
  · rw [fusion_of_good tru [.dropWhile f, .reverse] A rfl]
    rfl
  · rw [fusion_of_good tru [.takeWhile f, .reverse] A rfl]
    rfl

/-- C4.  Take-count bound: for every array-backed pipeline built by lazy
chain calls, `.take(n).value()` has length at most `n`, with equality
exactly when the upstream pipeline supplies at least `n` elements. -/
theorem C4_take_bound {α : Type} [Inhabited α] (tru : α → Bool) (cs : List (Call α))
    (A : List α) (n : Nat) :
    (lazyList tru (lazyTake (build cs A) (some (.int n)))).length ≤ n
    ∧ ((lazyList tru (lazyTake (build cs A) (some (.int n)))).length = n
        ↔ n ≤ (lazyList tru (build cs A)).length) := by
  have hInv := inv_build cs A
  have hInv2 : Inv (lazyTake (build cs A) (some (.int n))) :=
    (applyCall_step (.take (some (.int n))) (build cs A) hInv).1
  have h1 : lazyList tru (lazyTake (build cs A) (some (.int n)))
      = (semOf tru (build cs A)).take (normN (some (.int n))) := by
    rw [lazyList_char tru _ (Inv_Wf _ hInv2)]
    exact semOf_take_call tru (some (.int n)) (build cs A) hInv
  have h2 : lazyList tru (build cs A) = semOf tru (build cs A) :=
    lazyList_char tru _ (Inv_Wf _ hInv)
  have hn : normN (some (.int n)) = n := by
    simp [normN, jsFloorOr0]
  rw [h1, h2, hn, List.length_take]
  omega

/-- C5.  Reversal involution: for pipelines built without while-variant
calls, `.reverse().reverse().value()` equals `.value()`. -/
theorem C5_reverse_involution {α : Type} [Inhabited α] (tru : α → Bool) (cs : List (Call α))
    (A : List α) (_hnw : noWhileCalls cs = true) :
    lazyVal tru (lazyReverse (lazyReverse (build cs A))) = lazyVal tru (build cs A) := by
  have hInv := inv_build cs A
  have hInv2 : Inv (lazyReverse (build cs A)) :=
    (applyCall_step (.reverse) (build cs A) hInv).1
  have hInv3 : Inv (lazyReverse (lazyReverse (build cs A))) :=
    (applyCall_step (.reverse) _ hInv2).1
  rw [lazyVal_char tru _ (Inv_Wf _ hInv3), lazyVal_char tru _ (Inv_Wf _ hInv)]
  rw [semOf_reverse_call tru _ hInv2, semOf_reverse_call tru _ hInv, List.reverse_reverse]

theorem C5_reverse_involution_witness :
    noWhileCalls [Call.filter (fun x : Int => if x > 1 then 1 else 0)] = true
    ∧ lazyVal truInt (lazyReverse (lazyReverse
        (build [.filter (fun x : Int => if x > 1 then 1 else 0)] [1, 2, 3])))
      = lazyVal truInt (build [.filter (fun x : Int => if x > 1 then 1 else 0)] [1, 2, 3]) :=
  ⟨by decide, C5_reverse_involution truInt
    [.filter (fun x : Int => if x > 1 then 1 else 0)] [1, 2, 3] (by decide)⟩

/-- C6.  The claim's relative clause “scratch state reset at the start of
each terminal evaluation” is false: evaluation does not reinitialize the
entry counters, so after `.filter(_ => true).drop(5)` over `[1,2,3]`
evaluates to `[]`, a second terminal evaluation starts from the persisted
`count` and returns `[3]`. -/
theorem C6_counterexample :
    lazyVal truInt (build [.filter (fun _ => 1), .drop (some (.int 5))] [1, 2, 3])
      = some (.arr [])
    ∧ ((lazyValueS truInt (build [.filter (fun _ => 1), .drop (some (.int 5))] [1, 2, 3])).bind
        fun p => lazyVal truInt p.2) = some (.arr [3]) := by
  refine ⟨?_, ?_⟩ <;> decide

/-- C6 (amended).  Every chainable call returns a new wrapper and leaves
the receiver's queue description untouched: `clone` evaluates identically
to the receiver; `filter`, `map` and `takeWhile` always — and `dropWhile`
on an unfiltered receiver — extend a structural copy of the receiver's
queue with one fresh entry, leaving views, direction and cap unchanged;
`dropWhile` on a filtered receiver instead wraps the receiver intact as
the `__wrapped__` of a fresh default-configured wrapper holding the one
new entry, as do `drop` (with the fresh entry's `limit` set) and
`reverse` (with `__dir__ = -1`) on filtered receivers; unfiltered
`take`/`drop` append one view to a copy, and filtered `take` only lowers
the cap of a copy.  Pushed entries start with fresh counters, and the
counters are indeed the only mutable state — but they persist across
evaluations rather than being reset at the start of each one (see the
counterexample). -/
theorem C6_copy_on_write {α : Type} [Inhabited α] (tru : α → Bool) (w : LazyWrapper α)
    (f : α → α) (n0 : Option JsNum) :
    lazyVal tru (lazyClone w) = lazyVal tru w
    ∧ (∀ ty ∈ ([1, 2, 3] : List Nat),
        (lazyPushIter ty f w).cfg.iteratees
          = some (w.cfg.iteratees.getD [] ++ [mkIter ty f])
        ∧ (lazyPushIter ty f w).cfg.views = w.cfg.views
        ∧ (lazyPushIter ty f w).cfg.dir = w.cfg.dir
        ∧ (lazyPushIter ty f w).cfg.takeCount = w.cfg.takeCount)
    ∧ (lazyPushIter 2 f w).cfg.filtered = w.cfg.filtered
    ∧ (lazyPushIter 1 f w).cfg.filtered = true
    ∧ (lazyPushIter 3 f w).cfg.filtered = true
    ∧ (w.cfg.filtered = false →
        (lazyPushIter 0 f w).cfg.iteratees
          = some (w.cfg.iteratees.getD [] ++ [mkIter 0 f])
        ∧ (lazyPushIter 0 f w).cfg.views = w.cfg.views
        ∧ (lazyPushIter 0 f w).cfg.dir = w.cfg.dir
        ∧ (lazyPushIter 0 f w).cfg.takeCount = w.cfg.takeCount)
    ∧ (w.cfg.filtered = true →
        lazyPushIter 0 f w
          = .over w { baseCfg with iteratees := some [mkIter 0 f], filtered := true })
    ∧ (lazyTake w n0).cfg.iteratees = w.cfg.iteratees
    ∧ (lazyTake w n0).cfg.dir = w.cfg.dir
    ∧ (lazyTake w n0).cfg.filtered = w.cfg.filtered
    ∧ (w.cfg.filtered = true →
        (lazyTake w n0).cfg.views = w.cfg.views
        ∧ (lazyTake w n0).cfg.takeCount
          = some (match w.cfg.takeCount with
                  | none => normN n0
                  | some m => min m (normN n0)))
    ∧ (w.cfg.filtered = false →
        (lazyTake w n0).cfg.takeCount = w.cfg.takeCount
        ∧ (lazyTake w n0).cfg.views
          = some (w.cfg.views.getD []
              ++ [⟨normN n0, if w.cfg.dir < 0 then .takeRight else .take⟩]))
    ∧ (w.cfg.filtered = false →
        (lazyDrop w n0).cfg.iteratees = w.cfg.iteratees
        ∧ (lazyDrop w n0).cfg.dir = w.cfg.dir
        ∧ (lazyDrop w n0).cfg.filtered = false
        ∧ (lazyDrop w n0).cfg.takeCount = w.cfg.takeCount
        ∧ (lazyDrop w n0).cfg.views
          = some (w.cfg.views.getD []
              ++ [⟨normN n0, if w.cfg.dir < 0 then .dropRight else .drop⟩]))
    ∧ (w.cfg.filtered = true →
        lazyDrop w n0
          = .over w { baseCfg with
              iteratees := some [{ mkIter 0 (id : α → α) with limit := (normN n0 : Int) }],
              filtered := true })
    ∧ (w.cfg.filtered = true →
        lazyReverse w = .over w { baseCfg with dir := -1, filtered := true })
    ∧ (w.cfg.filtered = false →
        (lazyReverse w).cfg.iteratees = w.cfg.iteratees
        ∧ (lazyReverse w).cfg.views = w.cfg.views
        ∧ (lazyReverse w).cfg.takeCount = w.cfg.takeCount
        ∧ (lazyReverse w).cfg.filtered = false
        ∧ (lazyReverse w).cfg.dir = w.cfg.dir * -1)
    ∧ (∀ ty : Nat, (mkIter ty f).done = false ∧ (mkIter ty f).count = 0) := by
  refine ⟨?_, ?_, ?_, ?_, ?_, ?_, ?_, ?_, ?_, ?_, ?_, ?_, ?_, ?_, ?_, ?_,
    fun ty => ⟨rfl, rfl⟩⟩
  · cases w with
    | base v c =>
      cases v with
      | arr A => rfl
      | raw x =>
        cases hact : c.actions <;>
          simp [lazyVal, lazyValueS, baseWrapperValueM, lazyClone, cloneCfg, hact]
    | over w0 c =>
      show ((lazyValueS tru (.over w0 (cloneCfg c))).map Prod.fst)
          = ((lazyValueS tru (.over w0 c)).map Prod.fst)
      cases h0 : lazyValueS tru w0 with
      | none => simp [lazyValueS, h0]
      | some p =>
        rcases p with ⟨pv, pw⟩
        cases pv with
        | arr A => simp [lazyValueS, h0, evalArr, cloneCfg]
        | raw x =>
          cases hact : c.actions <;>
            simp [lazyValueS, h0, baseWrapperValueM, cloneCfg, hact]
  · intro ty hty
    have hty2 : ty = 1 ∨ ty = 2 ∨ ty = 3 := by simpa using hty
    have h0 : (w.cfg.filtered && (ty == 0)) = false := by
      rcases hty2 with h | h | h <;> subst h <;> simp
    rw [lazyPushIter_clone ty f w h0, cfg_withClone]
    refine ⟨?_, ?_, ?_, ?_⟩ <;> simp [cloneCfg]
  · rw [lazyPushIter_clone 2 f w (by simp), cfg_withClone]
    simp [cloneCfg]
  · rw [lazyPushIter_clone 1 f w (by simp), cfg_withClone]
    simp [cloneCfg]
  · rw [lazyPushIter_clone 3 f w (by simp), cfg_withClone]
    simp [cloneCfg]
  · intro hf
    rw [lazyPushIter_clone 0 f w (by simp [hf]), cfg_withClone]
    refine ⟨?_, ?_, ?_, ?_⟩ <;> simp [cloneCfg]
  · intro hf
    rw [lazyPushIter_nest 0 f w (by simp [hf])]
    simp [hf]
  · show (if w.cfg.filtered then _ else _ : LazyWrapper α).cfg.iteratees = _
    split <;> rw [cfg_withClone] <;> rfl
  · show (if w.cfg.filtered then _ else _ : LazyWrapper α).cfg.dir = _
    split <;> rw [cfg_withClone] <;> rfl
  · show (if w.cfg.filtered then _ else _ : LazyWrapper α).cfg.filtered = _
    split <;> rw [cfg_withClone] <;> rfl
  · intro hf
    refine ⟨?_, ?_⟩ <;> simp [lazyTake, hf, cfg_withClone, cloneCfg]
  · intro hf
    refine ⟨?_, ?_⟩ <;> simp [lazyTake, hf, cfg_withClone, cloneCfg]
  · intro hf
    refine ⟨?_, ?_, ?_, ?_, ?_⟩ <;> simp [lazyDrop, hf, cfg_withClone, cloneCfg]
  · intro hf
    have hnest := lazyPushIter_nest 0 (id : α → α) w (by simp [hf])
    simp only [lazyDrop, hf, if_true]
    rw [hnest]
    simp [withCfg, setLastLimit, hf]
  · intro hf
    simp [lazyReverse, hf]
  · intro hf
    refine ⟨?_, ?_, ?_, ?_, ?_⟩ <;> simp [lazyReverse, hf, cfg_withClone, cloneCfg]

/-- C7.  takeWhile termination: once the value reaching a `takeWhile`
entry at source position `i` fails the predicate, the entire evaluation
terminates there — the result is the same as if the array had been
truncated before position `i`, so no element at any later position is
ever emitted. -/
theorem C7_takeWhile_cut {α : Type} [Inhabited α] (tru : α → Bool) (A : List α)
    (pre post : List (LazyIter α)) (q : α → α) (i : Nat) (v : α)
    (hpre : ∀ e ∈ pre, (e.type = 1 ∨ e.type = 2) ∧ e.done = false ∧ e.count = 0)
    (hpost : ∀ e ∈ post, e.done = false ∧ e.count = 0)
    (hreach : denoteAll tru pre (A.take (i + 1)) = denoteAll tru pre (A.take i) ++ [v])
    (hfail : tru (q v) = false) :
    lazyVal tru (.base (.arr A) { baseCfg with
      iteratees := some (pre ++ [mkIter 3 q] ++ post), filtered := true })
      = lazyVal tru (.base (.arr (A.take i)) { baseCfg with
          iteratees := some (pre ++ [mkIter 3 q] ++ post), filtered := true }) := by
  have hfresh : ∀ e ∈ pre ++ [mkIter 3 q] ++ post, e.done = false ∧ e.count = 0 := by
    intro e he
    have he2 : e ∈ pre ∨ e = mkIter 3 q ∨ e ∈ post := by simpa using he
    rcases he2 with he2 | he2 | he2
    · exact (hpre e he2).2
    · subst he2
      exact ⟨rfl, rfl⟩
    · exact hpost e he2
  have hWf : ∀ (B : List α), Wf (.base (.arr B) ({ baseCfg with
      iteratees := some (pre ++ [mkIter 3 q] ++ post), filtered := true } : LazyCfg α)) := by
    intro B
    exact ⟨⟨B, rfl⟩, by simpa using hfresh, Or.inl rfl⟩
  rw [lazyVal_char tru _ (hWf A), lazyVal_char tru _ (hWf (A.take i))]
  have hsem : ∀ (B : List α), semOf tru (.base (.arr B) ({ baseCfg with
      iteratees := some (pre ++ [mkIter 3 q] ++ post), filtered := true } : LazyCfg α))
      = denoteAll tru (pre ++ [mkIter 3 q] ++ post) B := by
    intro B
    exact semOfList_basic tru (pre ++ [mkIter 3 q] ++ post) true B
  rw [hsem A, hsem (A.take i)]
  rw [denoteAll_append tru (pre ++ [mkIter 3 q]) post,
    denoteAll_append tru (pre ++ [mkIter 3 q]) post,
    denoteAll_append_one, denoteAll_append_one]
  have hq : ∀ s : List α, denoteIter tru (mkIter 3 q) s
      = s.takeWhile (fun x => tru (q x)) := by
    intro s
    simp [denoteIter, mkIter]
  have hmf : ∀ e ∈ pre, e.type = 1 ∨ e.type = 2 := fun e he => (hpre e he).1
  have hkey : (denoteAll tru pre A).takeWhile (fun x => tru (q x))
      = (denoteAll tru pre (A.take i)).takeWhile (fun x => tru (q x)) := by
    calc (denoteAll tru pre A).takeWhile (fun x => tru (q x))
        = (denoteAll tru pre (A.take (i + 1) ++ A.drop (i + 1))).takeWhile
            (fun x => tru (q x)) := by
          rw [List.take_append_drop]
      _ = ((denoteAll tru pre (A.take i) ++ [v])
            ++ denoteAll tru pre (A.drop (i + 1))).takeWhile (fun x => tru (q x)) := by
          rw [denoteAll_mf_append tru pre _ _ hmf, hreach]
      _ = (denoteAll tru pre (A.take i)
            ++ v :: denoteAll tru pre (A.drop (i + 1))).takeWhile (fun x => tru (q x)) := by
          rw [List.append_assoc]
          rfl
      _ = (denoteAll tru pre (A.take i)).takeWhile (fun x => tru (q x)) :=
          takeWhile_append_fail _ v hfail _ _
  rw [hq, hq, hkey]

theorem C7_takeWhile_cut_witness :
    lazyVal truInt (.base (.arr [1, 2, 3, 4]) { baseCfg with
      iteratees := some ([] ++ [mkIter 3 (fun x => if x < 3 then 1 else 0)] ++ []),
      filtered := true })
      = lazyVal truInt (.base (.arr ([1, 2, 3, 4].take 2)) { baseCfg with
          iteratees := some ([] ++ [mkIter 3 (fun x => if x < 3 then 1 else 0)] ++ []),
          filtered := true }) :=
  C7_takeWhile_cut truInt [1, 2, 3, 4] [] [] (fun x => if x < 3 then 1 else 0) 2 3
    (fun e he => absurd he (List.not_mem_nil e))
    (fun e he => absurd he (List.not_mem_nil e))
    (by decide) (by decide)

/-- C9.  Out-of-range and non-numeric `n` arguments to `drop`/`take` are
silently coerced and clamped to `0` rather than raising: `take(A, -5)`
behaves exactly as `take(A, 0)` (likewise `drop`, likewise `NaN`) in the
eager implementations, and the lazy `take`/`drop` methods build the very
same wrapper for `-5` or `NaN` as for `0`. -/
theorem C9_take_coercion {α : Type} (A : List α) (w : LazyWrapper α) :
    array_take A (some (.int (-5))) = array_take A (some (.int 0))
    ∧ array_drop A (some (.int (-5))) = array_drop A (some (.int 0))
    ∧ array_take A (some .nan) = array_take A (some (.int 0))
    ∧ array_drop A (some .nan) = array_drop A (some (.int 0))
    ∧ lazyTake w (some (.int (-5))) = lazyTake w (some (.int 0))
    ∧ lazyDrop w (some (.int (-5))) = lazyDrop w (some (.int 0))
    ∧ lazyTake w (some .nan) = lazyTake w (some (.int 0))
    ∧ lazyDrop w (some .nan) = lazyDrop w (some (.int 0)) := by
  have h5 : normN (some (.int (-5))) = normN (some (.int 0)) := by decide
  have hn : normN (some .nan) = normN (some (.int 0)) := by decide
  refine ⟨?_, ?_, ?_, ?_, ?_, ?_, ?_, ?_⟩
  · rw [array_take_eq, array_take_eq, h5]
  · rw [array_drop_eq, array_drop_eq, h5]
  · rw [array_take_eq, array_take_eq, hn]
  · rw [array_drop_eq, array_drop_eq, hn]
  · simp only [lazyTake, h5]
  · simp only [lazyDrop, h5]
  · simp only [lazyTake, hn]
  · simp only [lazyDrop, hn]

/-- C10.  As stated the claim is false: with a non-array source and the
constructor-default `__actions__ = null`, `lazyValue` hands `null` to
`baseWrapperValue`, whose `actions.length` throws a TypeError instead of
returning the value. -/
theorem C10_counterexample :
    lazyVal truInt (.base (.raw 7) { baseCfg with
      iteratees := some [mkIter 2 (fun x => x * 2)] }) = none
    ∧ lazyVal truInt (.base (.raw 7) { baseCfg with
        iteratees := some [mkIter 2 (fun x => x * 2)] }) ≠ some (.raw 7) := by
  refine ⟨?_, ?_⟩ <;> decide

/-- C10 (amended).  For a wrapper whose source value is not an array and
whose `__actions__` list is non-null, `value()` returns the fold of the
actions over that value and ignores every queued iteratee and pending
view transform; with a null `__actions__` list the evaluation throws. -/
theorem C10_nonarray_actions {α : Type} [Inhabited α] (tru : α → Bool) (v : α)
    (acts : List (JsVal α → JsVal α)) (d : Int) (dc : Nat) (ft : Bool)
    (its : Option (List (LazyIter α))) (tc : Option Nat) (vs : Option (List ViewX)) :
    lazyVal tru (.base (.raw v) ⟨some acts, d, dc, ft, its, tc, vs⟩)
      = some (acts.foldl (fun r a => a r) (.raw v)) := by
  simp [lazyVal, lazyValueS, baseWrapperValueM]


/-! ### C8: the matcher fast path (`baseMatches`, `baseIsMatch`,
`isStrictComparable`, source lines 1281-1358).

JavaScript values are modeled by `JsV`: `undefined`, `null`, `NaN`,
negative zero, other numbers, strings, and objects identified by a
reference id.  An object is a map from keys to optional values (`none`
means the property is absent, `some .undef` a present-but-undefined
property); a candidate element is an `Option Obj`, with `none` standing
for the `null`/`undefined` receivers rejected by the `object != null`
guard.  Property reads on the non-null values modeled here agree with
reads through `Object(...)` boxing, so `toObject` is the identity. -/

inductive JsV : Type
  | undef
  | jsNull
  | nan
  | negZero
  | num (n : Int)
  | str (s : String)
  | obj (id : Nat)
deriving DecidableEq

/-- JavaScript strict equality `===` on `JsV`: `NaN` is not equal to
itself, and `-0 === 0`. -/
def seq : JsV → JsV → Bool
  | .undef, .undef => true
  | .jsNull, .jsNull => true
  | .negZero, .negZero => true
  | .negZero, .num n => n == 0
  | .num n, .negZero => n == 0
  | .num a, .num b => a == b
  | .str a, .str b => a == b
  | .obj a, .obj b => a == b
  | _, _ => false

/-- `lang_isObject` (functions are not modeled; no `JsV` constructor is
a function). -/
def lang_isObject : JsV → Bool
  | .obj _ => true
  | _ => false

/-- The sign test `(1 / value) > 0`, only consulted when
`value === 0` holds: `1 / 0` is `+Infinity` (positive) and `1 / -0` is
`-Infinity` (not positive). -/
def oneDivPos : JsV → Bool
  | .num 0 => true
  | _ => false

/-- `isStrictComparable` (source lines 1317-1319):
`value === value && (value === 0 ? ((1 / value) > 0) : !isObject(value))`. -/
def isStrictComparable (value : JsV) : Bool :=
  seq value value &&
    (if seq value (.num 0) then oneDivPos value else !(lang_isObject value))

abbrev Obj : Type := String → Option JsV

/-- Property read `object[key]`: an absent property reads `undefined`. -/
def getK (o : Obj) (k : String) : JsV := ((o k).getD .undef)

/-- The `in` operator: `key in object`. -/
def hasIn (o : Obj) (k : String) : Bool := (o k).isSome

def isUndef : JsV → Bool
  | .undef => true
  | _ => false

/-- `toObject` (source lines 1323-1325); identity on the object views
modeled here. -/
def toObject (o : Obj) : Obj := o

/-- `baseIsMatch` (source lines 1281-1313) in the no-customizer case
(`baseMatches` never passes one, so `noCustomizer` is true);
`baseIsEqual` is abstracted as the parameter `beq`, which the
strict-compare branches never consult.  Each `while` loop that
early-returns `false` becomes an `all` over the index range. -/
def baseIsMatch (beq : JsV → JsV → Bool) (object : Obj)
    (props : List String) (values : List JsV)
    (strictCompareFlags : List Bool) : Bool :=
  ((List.range props.length).all fun index =>
    if strictCompareFlags.getD index false then
      seq (values.getD index .undef) (getK object (props.getD index ""))
    else
      hasIn object (props.getD index ""))
  &&
  ((List.range props.length).all fun index =>
    if strictCompareFlags.getD index false then
      !(isUndef (getK object (props.getD index "")))
        || hasIn object (props.getD index "")
    else
      beq (values.getD index .undef) (getK object (props.getD index "")))

/-- The special-cased single-key predicate returned by `baseMatches`
(source lines 1339-1345) when the pattern has exactly one key whose
value is strictly comparable:
`object != null && object[key] === value &&
 (typeof value != 'undefined' || (key in toObject(object)))`. -/
def fastMatch (key : String) (value : JsV) (object : Option Obj) : Bool :=
  match object with
  | none => false
  | some o => seq (getK o key) value && (!(isUndef value) || hasIn (toObject o) key)

/-- The general predicate returned by `baseMatches` (source lines
1347-1356) instantiated at a single-key pattern: `strictCompareFlags[0]`
is computed as `isStrictComparable value`. -/
def generalMatch (beq : JsV → JsV → Bool) (key : String) (value : JsV)
    (object : Option Obj) : Bool :=
  match object with
  | none => false
  | some o => baseIsMatch beq (toObject o) [key] [value] [isStrictComparable value]

theorem seq_symm (a b : JsV) : seq a b = seq b a := by
  cases a <;> cases b <;> simp [seq] <;> exact eq_comm


theorem seq_isUndef_eq (v g : JsV) (hseq : seq v g = true) :
    isUndef g = isUndef v := by
  cases v <;> cases g <;> simp_all [seq, isUndef]

theorem baseIsMatch_single (beq : JsV → JsV → Bool) (o : Obj) (k : String)
    (v : JsV) :
    baseIsMatch beq o [k] [v] [true]
      = (seq v (getK o k) && (!(isUndef (getK o k)) || hasIn o k)) := by
  simp [baseIsMatch, List.range_succ]

/-- C8.  Matcher fast-path equivalence: for a single-key pattern whose
value is strictly comparable, the special-cased predicate built by
`baseMatches` returns the same boolean as the general `baseIsMatch`
path on every element, for any implementation `beq` of `baseIsEqual`
(the strict-compare branches never call it). -/
theorem C8_matcher_fast_path (beq : JsV → JsV → Bool) (key : String)
    (value : JsV) (hsc : isStrictComparable value = true)
    (object : Option Obj) :
    fastMatch key value object = generalMatch beq key value object := by
  cases object with
  | none => rfl
  | some o =>
    show (seq (getK o key) value && (!(isUndef value) || hasIn o key))
        = baseIsMatch beq o [key] [value] [isStrictComparable value]
    rw [hsc, baseIsMatch_single, seq_symm]
    cases hseq : seq value (getK o key) with
    | false => simp
    | true =>
      have hu := seq_isUndef_eq value (getK o key) hseq
      simp [hu]

theorem C8_matcher_fast_path_witness :
    isStrictComparable (JsV.num 5) = true
    ∧ fastMatch "a" (JsV.num 5)
        (some fun k => if k = "a" then some (JsV.num 5) else none)
      = generalMatch (fun _ _ => false) "a" (JsV.num 5)
          (some fun k => if k = "a" then some (JsV.num 5) else none) :=
  ⟨by decide,
   C8_matcher_fast_path (fun _ _ => false) "a" (JsV.num 5) (by decide)
     (some fun k => if k = "a" then some (JsV.num 5) else none)⟩

end Lodash
